import Mathlib

/-!
Verification of the sorting core in `include/algorithms/Sorting.h` of the
cpp-utility repository: `IsSorted`, `MergeSort`, `QuickSort`,
`InsertionSort` and `BucketSort`, via a shallow embedding over Lean lists
with explicit indices.

Modelling conventions:
- sequences and buffers are `List` values; `operator[]` reads are `List.getD`
  where the index is provably in range on every reachable path, and `List.get?`
  (failing with a distinguished error) where an out-of-range access is
  reachable (invalid iterator arithmetic such as `end - 1` on an empty range);
- writes are `List.set` (in range on every reachable path where it is used);
- `MIST_ASSERT` failures are `none` / a distinguished error value;
- each C++ loop becomes structural recursion; loops whose trip count is exact
  by construction carry it as a `steps` argument, loops guarded by a data
  dependent condition carry a fuel bound together with the original guard, so
  that the guard (not the fuel) decides every reachable exit.
-/

/-- `Detail::Min`: minimum of two values via `<`. -/
def detailMin (a b : Nat) : Nat := if a < b then a else b

/-- The scan of `IsSorted`: `next` runs over the tail; returns `false` as soon
as `*next < *begin` for an adjacent pair. -/
def isSortedLoop : Int → List Int → Bool
  | _, [] => true
  | prev, next :: rest => if next < prev then false else isSortedLoop next rest

/-- `IsSorted(begin, end)`: fatal assertion (modelled `none`) when the range is
empty, otherwise the adjacent-pair scan. -/
def isSorted : List Int → Option Bool
  | [] => none
  | x :: xs => some (isSortedLoop x xs)

/-- The inner `while` loop of `MergeSort` merging the block `[first, last)`
with the block `[firstNext, lastNext)` of `read` into `write` at `writeHead`.
`steps` is the exact trip count `(last - first) + (lastNext - firstNext)`. -/
def mergeInner (lt : α → α → Bool) [Inhabited α] (read : List α) :
    Nat → List α → Nat → Nat → Nat → Nat → Nat → List α × Nat
  | 0, write, wh, _, _, _, _ => (write, wh)
  | steps+1, write, wh, first, last, firstNext, lastNext =>
    if firstNext = lastNext then
      mergeInner lt read steps (write.set wh (read.getD first default)) (wh+1)
        (first+1) last firstNext lastNext
    else if first = last then
      mergeInner lt read steps (write.set wh (read.getD firstNext default)) (wh+1)
        first last (firstNext+1) lastNext
    else if lt (read.getD firstNext default) (read.getD first default) then
      mergeInner lt read steps (write.set wh (read.getD firstNext default)) (wh+1)
        first last (firstNext+1) lastNext
    else
      mergeInner lt read steps (write.set wh (read.getD first default)) (wh+1)
        (first+1) last firstNext lastNext

/-- The `for` loop of one `MergeSort` pass: `i` steps by 2 while
`i < numBlocks`; each iteration merges the pair of blocks starting at
`i * blockSize`.  `fuel` bounds iterations; the `i < numBlocks` guard decides
every reachable exit. -/
def mergePassAux (lt : α → α → Bool) [Inhabited α] (read : List α)
    (blockSize size numBlocks : Nat) :
    Nat → Nat → List α → Nat → List α
  | 0, _, write, _ => write
  | fuel+1, i, write, wh =>
    if i < numBlocks then
      let first := i * blockSize
      let last := (i+1) * blockSize
      let firstNext := (i+1) * blockSize
      let lastNext := detailMin ((i+2) * blockSize) size
      let res := mergeInner lt read ((last - first) + (lastNext - firstNext))
        write wh first last firstNext lastNext
      mergePassAux lt read blockSize size numBlocks fuel (i+2) res.1 res.2
    else write

/-- The outer `while (blockSize < collectionSize)` loop of `MergeSort`: run a
pass, swap read and write buffers, reset the write head, double the block
size.  When the guard fails the function returns the read buffer (the final
`std::copy` back into the collection). -/
def mergeLoop (lt : α → α → Bool) [Inhabited α] :
    Nat → List α → List α → Nat → Nat → List α
  | 0, read, _, _, _ => read
  | fuel+1, read, write, blockSize, size =>
    if blockSize < size then
      let numBlocks := size / blockSize
      let write2 := mergePassAux lt read blockSize size numBlocks (numBlocks+1) 0 write 0
      mergeLoop lt fuel write2 read (blockSize + blockSize) size
    else read

/-- `MergeSort(collection)` and the identical contiguous-range overload
`MergeSort(begin, end)` (same control flow, different storage addressing):
bottom-up double-buffered merge sort.  The working area is default-constructed
(`CollectionType workingArea(collectionSize)`), modelled by `default`.
The fuel `length + 1` strictly exceeds the number of doublings of `blockSize`
needed to reach `size`, so the guard decides every exit. -/
def mergeSort (lt : α → α → Bool) [Inhabited α] (l : List α) : List α :=
  mergeLoop lt (l.length + 1) l (List.replicate l.length default) 1 l.length

/-- `MergeSort` instantiated at `Int` with `operator<`. -/
def mergeSortI (l : List Int) : List Int :=
  mergeSort (fun a b => decide (a < b)) l

/-- Errors of the `QuickSort` model: an out-of-bounds iterator dereference
(undefined behaviour in the C++ source) or fuel exhaustion of the embedded
stack loop (shown unreachable). -/
inductive QErr
  | oob
  | fuel
deriving DecidableEq

/-- `std::swap(l[i], l[j])` through iterators: fails when either index is out
of bounds. -/
def swapList (l : List Int) (i j : Nat) : Option (List Int) :=
  match l.get? i, l.get? j with
  | some a, some b => some ((l.set i b).set j a)
  | _, _ => none

/-- The partition scan of `QuickSort` over `[t, hi)` with the pivot at
`pivotIdx` and boundary marker `fL` (`fL = pivotIdx` encodes "no larger
element seen yet").  `steps` is the exact trip count `hi - t`. -/
def partLoop (pivotIdx : Nat) : Nat → List Int → Nat → Nat → Option (List Int × Nat)
  | 0, l, fL, _ => some (l, fL)
  | steps+1, l, fL, t =>
    match l.get? t, l.get? pivotIdx with
    | some ct, some pv =>
      if ct ≤ pv ∧ fL ≠ pivotIdx ∧ t ≠ pivotIdx then
        match swapList l t fL with
        | some l2 => partLoop pivotIdx steps l2 (fL+1) (t+1)
        | none => none
      else if ct > pv ∧ fL = pivotIdx then
        partLoop pivotIdx steps l t (t+1)
      else
        partLoop pivotIdx steps l fL (t+1)
    | _, _ => none

/-- One full partition pass of `QuickSort` on the range `[lo, hi)`: the pivot
is the last element (`currentRange.second - 1`), the scan runs from `lo`, and
afterwards the pivot is swapped into the boundary slot, its final position.
On the empty initial range (`hi = 0` with the empty list) the pivot iterator
is invalid and the final swap dereferences it: the model fails with `none`. -/
def partitionPass (l : List Int) (lo hi : Nat) : Option (List Int × Nat) :=
  let pivotIdx := hi - 1
  match partLoop pivotIdx (hi - lo) l pivotIdx lo with
  | some lfL =>
    match swapList lfL.1 lfL.2 pivotIdx with
    | some l2 => some (l2, lfL.2)
    | none => none
  | none => none

/-- The explicit-stack loop of `QuickSort`: pop a range, partition it, push
the right and then the left sub-range, each only if its size exceeds one.
The loop exits when the stack is empty; `fuel` bounds iterations. -/
def qsLoop : Nat → List (Nat × Nat) → List Int → Except QErr (List Int)
  | _, [], l => .ok l
  | 0, _ :: _, _ => .error .fuel
  | fuel+1, (lo, hi) :: rest, l =>
    match partitionPass l lo hi with
    | none => .error .oob
    | some (l2, p) =>
      let st1 := if hi - (p+1) > 1 then (p+1, hi) :: rest else rest
      let st2 := if p - lo > 1 then (lo, p) :: st1 else st1
      qsLoop fuel st2 l2

/-- `QuickSort(begin, end)` (and the collection overload that merely forwards
to it): seed the stack with the full range.  The fuel `2 ^ (length + 1)`
strictly exceeds the stack measure, so the stack-empty guard decides every
exit (see the termination theorem). -/
def quickSort (l : List Int) : Except QErr (List Int) :=
  qsLoop (2 ^ (l.length + 1)) [(0, l.length)] l

/-- Errors of the `BucketSort` model: a failed `MIST_ASSERT` or an
out-of-bounds access into the `counts` vector. -/
inductive BErr
  | assertFail
  | oob
deriving DecidableEq

/-- The counting pass of `BucketSort`: for each element, assert
`min <= *current <= max`, then `++counts[*current - min]`; an index past the
end of `counts` (which happens exactly for an element equal to `max`) is an
out-of-bounds write. -/
def bucketCount (mn mx : Int) : List Int → List Nat → Except BErr (List Nat)
  | [], counts => .ok counts
  | x :: xs, counts =>
    if x < mn then .error .assertFail
    else if mx < x then .error .assertFail
    else
      match counts.get? (x - mn).toNat with
      | some c => bucketCount mn mx xs (counts.set (x - mn).toNat (c+1))
      | none => .error .oob

/-- The inner `while (counts[currentIndex] == 0) ++currentIndex;` loop of the
reconstruction pass; reading past the end of `counts` is out of bounds. -/
def findBucket (counts : List Nat) (ci : Nat) : Except BErr Nat :=
  match h : counts.get? ci with
  | none => .error .oob
  | some 0 => findBucket counts (ci+1)
  | some (_+1) => .ok ci
termination_by counts.length - ci
decreasing_by
  have : ci < counts.length := by
    cases List.get?_eq_some.mp h with
    | intro w _ => exact w
  omega

/-- The reconstruction pass of `BucketSort`: for each position of the
sequence, skip exhausted buckets, write the current bucket index back into the
sequence (as a value, without reapplying `min`), and decrement that bucket. -/
def bucketRebuild : List Int → List Nat → Nat → Except BErr (List Int)
  | [], _, _ => .ok []
  | _ :: xs, counts, ci =>
    match findBucket counts ci with
    | .error e => .error e
    | .ok j =>
      match bucketRebuild xs (counts.set j (counts.getD j 0 - 1)) j with
      | .ok ys => .ok (Int.ofNat j :: ys)
      | .error e => .error e

/-- `BucketSort(begin, end, min, max)` (and the collection overload that
forwards to it): assert `max > min`, allocate `counts` of size `max - min`,
run the counting pass and then the reconstruction pass. -/
def bucketSort (l : List Int) (mn mx : Int) : Except BErr (List Int) :=
  if mx ≤ mn then .error .assertFail
  else
    match bucketCount mn mx l (List.replicate (mx - mn).toNat 0) with
    | .ok counts => bucketRebuild l counts 0
    | .error e => .error e

/-- The binary-search `while (end - start > 1)` loop of `InsertionSort`:
narrow `[start, e)` around the insertion point of `elem` in `dest`.
The internal assertion `end - start >= 1` never fires (the window always keeps
size at least one), so it is not modelled as a failure. -/
def searchLoop (dest : List Int) (elem : Int) (start e : Nat) : Nat × Nat :=
  if 1 < e - start then
    let pivotIndex := start + (e - 1 - start) / 2
    let pivot := dest.getD pivotIndex 0
    if elem > pivot then searchLoop dest elem (pivotIndex + 1) e
    else searchLoop dest elem start (pivotIndex + 1)
  else (start, e)
termination_by e - start
decreasing_by
  all_goals omega

/-- Insertion of a single source element into the destination: binary search,
then insert after the final single candidate if strictly greater, otherwise
before it. -/
def insertOne (dest : List Int) (elem : Int) : List Int :=
  let se := searchLoop dest elem 0 dest.length
  let pivotIndex := se.1 + (se.2 - se.1) / 2
  let pivot := dest.getD pivotIndex 0
  if elem > pivot then dest.insertIdx (pivotIndex + 1) elem
  else dest.insertIdx pivotIndex elem

/-- `InsertionSort(source, destination)`: assert the destination is non-empty
and sorted (both fatal, modelled `none`), then insert each source element in
iteration order. -/
def insertionSort (source dest : List Int) : Option (List Int) :=
  if dest.length = 0 then none
  else
    match isSorted dest with
    | some true => some (source.foldl insertOne dest)
    | _ => none

/-- Measure of the explicit work stack: each pending range contributes
exponentially in its size, so processing a range strictly decreases it. -/
def stackMeasure (st : List (Nat × Nat)) : Nat :=
  (st.map (fun r => 2 ^ (r.2 - r.1))).sum

/-- Ascending list of bucket indices encoded by a counts vector, starting at
bucket number `base`: bucket `j` (counting from `base`) contributes its count
in copies.  Used to state what the reconstruction pass of `BucketSort`
produces. -/
def countsList : List Nat → Nat → List Nat
  | [], _ => []
  | c :: cs, base => List.replicate c base ++ countsList cs (base + 1)

/-- Key-only comparison used to run `MergeSort` on key-tagged elements: the
template parameter `operator<` comparing only the key component. -/
def pairLt (a b : Int × Nat) : Bool := decide (a.1 < b.1)

/-- `MergeSort` on key-tagged elements compared only by key. -/
def mergeSortP (l : List (Int × Nat)) : List (Int × Nat) :=
  mergeSort pairLt l

/-- Tag every key with its position, starting at `i`: the input sequence of
key-tagged elements whose tags record original positions. -/
def tagged : List Int → Nat → List (Int × Nat)
  | [], _ => []
  | k :: ks, i => (k, i) :: tagged ks (i + 1)

/-- The half-open slice `[a, b)` of a list. -/
def sliceL (l : List α) (a b : Nat) : List α := (l.drop a).take (b - a)

/-- List-level form of the merge step of `MergeSort`: emit the right head
exactly when it compares strictly below the left head, otherwise (ties
included) the left head; drain the remainder when a side is exhausted. -/
def mergeLists (lt : α → α → Bool) : List α → List α → List α
  | l, [] => l
  | [], r => r
  | x :: xs, y :: ys =>
    if lt y x then y :: mergeLists lt (x :: xs) ys
    else x :: mergeLists lt xs (y :: ys)

/-- The index one past the last position written by a `MergeSort` pass with
the given block size: when the number of blocks is even the trailing partial
block pair is skipped by the `i < numBlocks` loop bound, otherwise the final
pair caps at the sequence length. -/
def covEnd (b n : Nat) : Nat := if (n / b) % 2 = 0 then (n / b) * b else n

/-! ## Theorems -/

/-- The scan of `IsSorted` agrees with the adjacent-pair chain condition
`¬ (b < a)`. -/
theorem isSortedLoop_eq_chain (x : Int) (xs : List Int) :
    isSortedLoop x xs = true ↔ List.Chain (fun a b => ¬ b < a) x xs := by
  induction xs generalizing x with
  | nil => simp [isSortedLoop]
  | cons y ys ih =>
    show (if y < x then false else isSortedLoop y ys) = true ↔ _
    rw [List.chain_cons]
    by_cases h : y < x
    · rw [if_pos h]
      exact ⟨fun hc => absurd hc (by simp), fun hc => absurd h hc.1⟩
    · rw [if_neg h, ih]
      exact ⟨fun hc => ⟨h, hc⟩, fun hc => hc.2⟩

/-- C9: `IsSorted(begin, end)` hits its fatal assertion exactly on the empty
range; on a non-empty range it returns `true` iff every adjacent pair `(a, b)`
satisfies `¬ (b < a)`; `[1,2,3]` gives `true`, `[3,1,2]` gives `false`, and a
single-element range gives `true`.  (The model is a pure function of the
range, so the range is never modified.) -/
theorem isSorted_spec :
    (∀ l : List Int, isSorted l = none ↔ l = []) ∧
    (∀ l : List Int, l ≠ [] →
      (isSorted l = some true ↔ l.Chain' (fun a b => ¬ b < a))) ∧
    isSorted [1, 2, 3] = some true ∧
    isSorted [3, 1, 2] = some false ∧
    (∀ x : Int, isSorted [x] = some true) := by
  refine ⟨?_, ?_, rfl, rfl, ?_⟩
  · intro l
    cases l with
    | nil => simp [isSorted]
    | cons x xs => simp [isSorted]
  · intro l hl
    cases l with
    | nil => exact absurd rfl hl
    | cons x xs =>
      show some (isSortedLoop x xs) = some true ↔
        List.Chain (fun a b => ¬ b < a) x xs
      rw [Option.some_inj]
      exact isSortedLoop_eq_chain x xs
  · intro x
    simp [isSorted, isSortedLoop]

/-- Witness for the non-empty case of the `IsSorted` specification at the
concrete range `[3,1,2]`. -/
theorem isSorted_spec_witness :
    ([3, 1, 2] : List Int) ≠ [] ∧
    (isSorted [3, 1, 2] = some true ↔
      ([3, 1, 2] : List Int).Chain' (fun a b => ¬ b < a)) :=
  ⟨by decide, isSorted_spec.2.1 [3, 1, 2] (by decide)⟩

/-- C1: `MergeSort` does not sort every input.  On the 11-element sequence
`[0,1,2,3,4,5,6,7,9,10,8]` the pass with block size 4 has `numBlocks = 2`, so
the `for` loop (stepping `i` by 2 while `i < numBlocks`) merges only
`[0,8)` and leaves `[8,11)` of the write buffer holding stale data from two
passes earlier; the final pass then merges a sorted left block with the
unsorted stale block `[9,10,8]`, and the function returns the input unchanged
and unsorted. -/
theorem mergeSort_size11_unsorted :
    mergeSortI [0, 1, 2, 3, 4, 5, 6, 7, 9, 10, 8] =
      [0, 1, 2, 3, 4, 5, 6, 7, 9, 10, 8] ∧
    isSorted (mergeSortI [0, 1, 2, 3, 4, 5, 6, 7, 9, 10, 8]) = some false :=
  ⟨rfl, rfl⟩

/-- C2: `QuickSort` on the empty sequence is not safe: the initial range is
pushed unconditionally, and processing it computes the pivot iterator
`currentRange.second - 1 = begin - 1` and dereferences it in the final
`std::swap`, an out-of-bounds access (modelled as the `oob` error). -/
theorem quickSort_empty_oob : quickSort [] = .error .oob := rfl

/-- C4: `MergeSort` on sequences of length 0 and 1 returns them unmodified
(the pass loop body never executes and no element is accessed), and
`QuickSort` on length 1 returns the sequence unmodified with all accesses in
bounds; but `QuickSort` on length 0 dereferences the invalid pivot iterator
`begin - 1` in its final swap (the `oob` error), contradicting the claim. -/
theorem sort_boundary_sizes :
    mergeSortI [] = [] ∧
    (∀ x : Int, mergeSortI [x] = [x]) ∧
    (∀ x : Int, quickSort [x] = .ok [x]) ∧
    quickSort ([] : List Int) = .error .oob := by
  refine ⟨rfl, fun x => rfl, fun x => ?_, rfl⟩
  simp [quickSort, qsLoop, partitionPass, partLoop, swapList]

/-- C3 counterexample: with `min = 0`, `max = 1` the checked preconditions
hold for the sequence `[1]` (`max > min`, the element lies in `[min, max]`),
yet the counting pass computes index `1 - 0 = 1` into the `counts` array of
size `max - min = 1`: out of bounds. -/
theorem bucketSort_max_element_oob :
    (0 : Int) < 1 ∧ (∀ x ∈ ([1] : List Int), 0 ≤ x ∧ x ≤ 1) ∧
    bucketSort [1] 0 1 = .error .oob :=
  ⟨by decide, by decide, rfl⟩

/-- C7 counterexample: on the specification's own example `[4,2,2,5,3]` with
`min = 2`, `max = 5` the checked preconditions hold, yet the element `5`
indexes `counts[3]` in an array of size `3`: the counting pass goes out of
bounds and no reconstruction happens at all. -/
theorem bucketSort_example_oob :
    (2 : Int) < 5 ∧ (∀ x ∈ ([4, 2, 2, 5, 3] : List Int), 2 ≤ x ∧ x ≤ 5) ∧
    bucketSort [4, 2, 2, 5, 3] 2 5 = .error .oob :=
  ⟨by decide, by decide, rfl⟩

/-- Setting an index to the value it already holds leaves the list
unchanged. -/
theorem set_get?_self : ∀ (l : List Int) (i : Nat) (a : Int),
    l.get? i = some a → l.set i a = l
  | [], _, _, h => by simp at h
  | x :: xs, 0, a, h => by
    simp only [List.get?] at h
    injection h with h
    subst h
    rfl
  | x :: xs, i+1, a, h => by
    simp only [List.get?] at h
    simp only [List.set]
    rw [set_get?_self xs i a h]

/-- Swapping a position with itself leaves the list unchanged. -/
theorem swapList_self (l : List Int) (i : Nat) (a : Int) (h : l.get? i = some a) :
    swapList l i i = some l := by
  have h2 : l[i]? = some a := by rw [← List.get?_eq_getElem?]; exact h
  simp [swapList, h, h2, List.set_set, set_get?_self l i a h]

/-- A swap of two in-range positions succeeds and is the double update. -/
theorem swapList_ok (l : List Int) (i j : Nat) (hi : i < l.length)
    (hj : j < l.length) :
    ∃ a b, l.get? i = some a ∧ l.get? j = some b ∧
      swapList l i j = some ((l.set i b).set j a) := by
  refine ⟨l[i], l[j], ?_, ?_, ?_⟩
  · rw [List.get?_eq_getElem?]
    exact List.getElem?_eq_getElem hi
  · rw [List.get?_eq_getElem?]
    exact List.getElem?_eq_getElem hj
  · simp [swapList, List.getElem?_eq_getElem, hi, hj]

/-- Reading back a position just set (in range). -/
theorem get?_set_same (l : List Int) (i : Nat) (a : Int) (h : i < l.length) :
    (l.set i a).get? i = some a := List.get?_set_eq_of_lt a h

/-- Reading a position other than the one set. -/
theorem get?_set_diff (l : List Int) {i j : Nat} (a : Int) (h : i ≠ j) :
    (l.set i a).get? j = l.get? j := List.get?_set_ne a l h

/-- `getD` through a known `get?`. -/
theorem getD_of_get? (l : List Int) (k : Nat) (a : Int) (h : l.get? k = some a) :
    l.getD k 0 = a := by
  rw [List.getD_eq_get?, h]
  rfl

/-- `getD` is determined by `get?`. -/
theorem getD_congr_get? (l l2 : List Int) (k : Nat) (h : l2.get? k = l.get? k) :
    l2.getD k 0 = l.getD k 0 := by
  rw [List.getD_eq_get?, List.getD_eq_get?, h]

/-- Loop invariant of the partition scan of `QuickSort`: with the pivot value
fixed at slot `hi - 1`, the scan keeps every position in `[lo, fL)` at most
the pivot and every position in `[fL, t)` other than the pivot slot strictly
above the pivot (`fL = hi - 1` encodes that no larger element has been seen,
in which case everything scanned so far is at most the pivot). -/
theorem partLoop_inv (lo hi : Nat) (pv : Int) :
    ∀ (steps : Nat) (l : List Int) (fL t : Nat),
      steps = hi - t → lo < hi → hi ≤ l.length → lo ≤ t → t ≤ hi →
      l.get? (hi - 1) = some pv →
      ((fL = hi - 1 ∧
          ∀ k, lo ≤ k → k < t → k ≠ hi - 1 → l.getD k 0 ≤ pv) ∨
        (lo ≤ fL ∧ fL < t ∧ fL < hi - 1 ∧
          (∀ k, lo ≤ k → k < fL → l.getD k 0 ≤ pv) ∧
          (∀ k, fL ≤ k → k < t → k ≠ hi - 1 → pv < l.getD k 0))) →
      ∃ l2 fL2,
        partLoop (hi - 1) steps l fL t = some (l2, fL2) ∧
        l2.length = l.length ∧
        l2.get? (hi - 1) = some pv ∧
        ((fL2 = hi - 1 ∧
            ∀ k, lo ≤ k → k < hi → k ≠ hi - 1 → l2.getD k 0 ≤ pv) ∨
          (lo ≤ fL2 ∧ fL2 < hi ∧ fL2 < hi - 1 ∧
            (∀ k, lo ≤ k → k < fL2 → l2.getD k 0 ≤ pv) ∧
            (∀ k, fL2 ≤ k → k < hi → k ≠ hi - 1 → pv < l2.getD k 0))) := by
  intro steps
  induction steps with
  | zero =>
    intro l fL t hsteps hlh hlen hlot hthi hpv hinv
    have ht : t = hi := by omega
    subst ht
    exact ⟨l, fL, rfl, rfl, hpv, hinv⟩
  | succ steps ih =>
    intro l fL t hsteps hlh hlen hlot hthi hpv hinv
    have htlt : t < hi := by omega
    have htlen : t < l.length := by omega
    obtain ⟨ct, hct⟩ : ∃ ct, l.get? t = some ct :=
      ⟨l[t], by rw [List.get?_eq_getElem?]; exact List.getElem?_eq_getElem htlen⟩
    simp only [partLoop, hct, hpv]
    by_cases hc1 : ct ≤ pv ∧ fL ≠ hi - 1 ∧ t ≠ hi - 1
    · rw [if_pos hc1]
      have hset : lo ≤ fL ∧ fL < t ∧ fL < hi - 1 ∧
          (∀ k, lo ≤ k → k < fL → l.getD k 0 ≤ pv) ∧
          (∀ k, fL ≤ k → k < t → k ≠ hi - 1 → pv < l.getD k 0) :=
        hinv.resolve_left (fun hl => hc1.2.1 hl.1)
      obtain ⟨hfLlo, hfLt, hfLpiv, hseg1, hseg2⟩ := hset
      have hfLlen : fL < l.length := by omega
      obtain ⟨a, b, ha, hb, hsw⟩ := swapList_ok l t fL htlen hfLlen
      have hact : a = ct := by
        rw [hct] at ha
        injection ha with h2
        exact h2.symm
      rw [hact] at hsw
      rw [hsw]
      have htpiv2 : t < hi - 1 := by
        have := hc1.2.2
        omega
      have hlen2 : ((l.set t b).set fL ct).length = l.length := by simp
      obtain ⟨l3, fL3, hrun, hlen3, hpv3, hinv3⟩ :=
        ih ((l.set t b).set fL ct) (fL+1) (t+1) (by omega) hlh (by omega)
          (by omega) (by omega)
          (by
            rw [get?_set_diff _ _ hc1.2.1, get?_set_diff _ _ hc1.2.2]
            exact hpv)
          (Or.inr ⟨by omega, by omega, by omega,
            (by
              intro k hk1 hk2
              by_cases hkfL : k = fL
              · subst hkfL
                rw [getD_of_get? _ _ ct (get?_set_same _ _ _ (by simp; omega))]
                exact hc1.1
              · rw [getD_congr_get? l _ k
                  (by
                    rw [get?_set_diff _ _ (by omega : fL ≠ k),
                      get?_set_diff _ _ (by omega : t ≠ k)])]
                exact hseg1 k hk1 (by omega)),
            (by
              intro k hk1 hk2 hk3
              by_cases hkt : k = t
              · subst hkt
                rw [getD_of_get? _ _ b
                    (by
                      rw [get?_set_diff _ _ (by omega : fL ≠ k)]
                      exact get?_set_same _ _ _ htlen)]
                have := hseg2 fL (by omega) hfLt (by omega)
                rw [getD_of_get? _ _ b hb] at this
                exact this
              · rw [getD_congr_get? l _ k
                  (by
                    rw [get?_set_diff _ _ (by omega : fL ≠ k),
                      get?_set_diff _ _ (by omega : t ≠ k)])]
                exact hseg2 k (by omega) (by omega) hk3)⟩)
      exact ⟨l3, fL3, hrun, by rw [hlen3, hlen2], hpv3, hinv3⟩
    · rw [if_neg hc1]
      by_cases hc2 : ct > pv ∧ fL = hi - 1
      · rw [if_pos hc2]
        have htpiv : t ≠ hi - 1 := by
          intro h
          rw [h, hpv] at hct
          injection hct with h2
          omega
        have hleft : fL = hi - 1 ∧
            ∀ k, lo ≤ k → k < t → k ≠ hi - 1 → l.getD k 0 ≤ pv :=
          hinv.resolve_right (fun hr => by
            have := hr.2.2.1
            omega)
        obtain ⟨l3, fL3, hrun, hlen3, hpv3, hinv3⟩ :=
          ih l t (t+1) (by omega) hlh hlen (by omega) (by omega) hpv
            (Or.inr ⟨by omega, by omega, by omega,
              (by
                intro k hk1 hk2
                exact hleft.2 k hk1 hk2 (by omega)),
              (by
                intro k hk1 hk2 hk3
                have hkt : k = t := by omega
                subst hkt
                rw [getD_of_get? _ _ ct hct]
                exact hc2.1)⟩)
        exact ⟨l3, fL3, hrun, hlen3, hpv3, hinv3⟩
      · rw [if_neg hc2]
        cases hinv with
        | inl hl =>
          obtain ⟨hfLeq, hseg⟩ := hl
          have hctpv : ct ≤ pv := by
            by_contra hcon
            exact hc2 ⟨by omega, hfLeq⟩
          obtain ⟨l3, fL3, hrun, hlen3, hpv3, hinv3⟩ :=
            ih l fL (t+1) (by omega) hlh hlen (by omega) (by omega) hpv
              (Or.inl ⟨hfLeq, by
                intro k hk1 hk2 hk3
                by_cases hkt : k = t
                · subst hkt
                  rw [getD_of_get? _ _ ct hct]
                  exact hctpv
                · exact hseg k hk1 (by omega) hk3⟩)
          exact ⟨l3, fL3, hrun, hlen3, hpv3, hinv3⟩
        | inr hr =>
          obtain ⟨hfLlo, hfLt, hfLpiv, hseg1, hseg2⟩ := hr
          have hstep : ∀ k, fL ≤ k → k < t + 1 → k ≠ hi - 1 → pv < l.getD k 0 := by
            intro k hk1 hk2 hk3
            by_cases hkt : k = t
            · subst hkt
              have hpvct : pv < ct := by
                by_contra hcon
                exact hc1 ⟨by omega, by omega, hk3⟩
              rw [getD_of_get? _ _ ct hct]
              exact hpvct
            · exact hseg2 k hk1 (by omega) hk3
          obtain ⟨l3, fL3, hrun, hlen3, hpv3, hinv3⟩ :=
            ih l fL (t+1) (by omega) hlh hlen (by omega) (by omega) hpv
              (Or.inr ⟨hfLlo, by omega, hfLpiv, hseg1, hstep⟩)
          exact ⟨l3, fL3, hrun, hlen3, hpv3, hinv3⟩

/-- Main property of the partition pass on a valid non-empty range: it
succeeds, the pivot value lands at a final position `p` inside the range, the
part of the range left of `p` is at most the pivot and the part right of `p`
is strictly greater; the length is preserved. -/
theorem partitionPass_main (l : List Int) (lo hi : Nat)
    (h1 : lo < hi) (h2 : hi ≤ l.length) :
    ∃ l2 p, partitionPass l lo hi = some (l2, p) ∧
      lo ≤ p ∧ p < hi ∧ l2.length = l.length ∧
      l2.getD p 0 = l.getD (hi - 1) 0 ∧
      (∀ k, lo ≤ k → k < p → l2.getD k 0 ≤ l2.getD p 0) ∧
      (∀ k, p < k → k < hi → l2.getD p 0 < l2.getD k 0) := by
  have hpivlen : hi - 1 < l.length := by omega
  obtain ⟨pv, hpv⟩ : ∃ pv, l.get? (hi - 1) = some pv :=
    ⟨l[hi - 1], by rw [List.get?_eq_getElem?]; exact List.getElem?_eq_getElem hpivlen⟩
  obtain ⟨l2, fL2, hrun, hlen2, hpv2, hinv2⟩ :=
    partLoop_inv lo hi pv (hi - lo) l (hi - 1) lo rfl h1 h2 (le_refl lo)
      (by omega) hpv
      (Or.inl ⟨rfl, by
        intro k hk1 hk2 hk3
        omega⟩)
  have hgetDpv : l.getD (hi - 1) 0 = pv := getD_of_get? l (hi - 1) pv hpv
  simp only [partitionPass, hrun]
  cases hinv2 with
  | inl hl =>
    obtain ⟨hfLeq, hseg⟩ := hl
    subst hfLeq
    rw [swapList_self l2 _ pv hpv2]
    refine ⟨l2, hi - 1, rfl, by omega, by omega, hlen2, ?_, ?_, ?_⟩
    · rw [getD_of_get? l2 _ pv hpv2, hgetDpv]
    · intro k hk1 hk2
      rw [getD_of_get? l2 _ pv hpv2]
      exact hseg k hk1 (by omega) (by omega)
    · intro k hk1 hk2
      omega
  | inr hr =>
    obtain ⟨hfLlo, hfLhi, hfLpiv, hseg1, hseg2⟩ := hr
    obtain ⟨a, b, ha, hb, hsw⟩ :=
      swapList_ok l2 fL2 (hi - 1) (by omega) (by omega)
    have hbpv : b = pv := by
      rw [hpv2] at hb
      injection hb with h3
      exact h3.symm
    rw [hbpv] at hsw
    rw [hsw]
    have hfL2len : fL2 < l2.length := by omega
    have hpfin : ((l2.set fL2 pv).set (hi - 1) a).getD fL2 0 = pv :=
      getD_of_get? ((l2.set fL2 pv).set (hi - 1) a) fL2 pv
        (by
          rw [get?_set_diff _ _ (by omega : hi - 1 ≠ fL2)]
          exact get?_set_same _ _ _ hfL2len)
    have hother : ∀ k, k ≠ fL2 → k ≠ hi - 1 →
        ((l2.set fL2 pv).set (hi - 1) a).getD k 0 = l2.getD k 0 := by
      intro k hk1 hk2
      refine getD_congr_get? l2 _ k ?_
      rw [get?_set_diff _ _ (fun h => hk2 h.symm),
        get?_set_diff _ _ (fun h => hk1 h.symm)]
    refine ⟨(l2.set fL2 pv).set (hi - 1) a, fL2, rfl, hfLlo, by omega,
      by simp [hlen2], ?_, ?_, ?_⟩
    · rw [hpfin, hgetDpv]
    · intro k hk1 hk2
      rw [hpfin, hother k (by omega) (by omega)]
      exact hseg1 k hk1 hk2
    · intro k hk1 hk2
      rw [hpfin]
      by_cases hkpiv : k = hi - 1
      · subst hkpiv
        rw [getD_of_get? ((l2.set fL2 pv).set (hi - 1) a) (hi - 1) a
          (get?_set_same _ _ _ (by simp; omega))]
        have := hseg2 fL2 (le_refl fL2) hfLhi (by omega)
        rw [getD_of_get? l2 _ a ha] at this
        exact this
      · rw [hother k (by omega) hkpiv]
        exact hseg2 k (by omega) hk2 hkpiv


/-- C6: for every non-empty range `[lo, hi)` within the sequence, the
partition pass of `QuickSort` succeeds (all accesses in bounds) and ends with
the pivot value (the range's original last element) at its final position
`p`, every element strictly left of `p` in the range comparing at most the
pivot value, and every element strictly right of `p` within the range
comparing strictly greater — with no assumption on duplicates, so the
statement covers inputs with many elements equal to the pivot. -/
theorem partitionPass_spec (l : List Int) (lo hi : Nat)
    (h1 : lo < hi) (h2 : hi ≤ l.length) :
    ∃ l2 p, partitionPass l lo hi = some (l2, p) ∧
      lo ≤ p ∧ p < hi ∧ l2.length = l.length ∧
      l2.getD p 0 = l.getD (hi - 1) 0 ∧
      (∀ k, lo ≤ k → k < p → l2.getD k 0 ≤ l2.getD p 0) ∧
      (∀ k, p < k → k < hi → l2.getD p 0 < l2.getD k 0) :=
  partitionPass_main l lo hi h1 h2

/-- Witness for the partition specification on the duplicate-heavy concrete
range `[3,1,3,2,3]` (pivot value 3 occurring three times). -/
theorem partitionPass_spec_witness :
    0 < 5 ∧ 5 ≤ ([3, 1, 3, 2, 3] : List Int).length ∧
    (∃ l2 p, partitionPass [3, 1, 3, 2, 3] 0 5 = some (l2, p) ∧
      0 ≤ p ∧ p < 5 ∧ l2.length = ([3, 1, 3, 2, 3] : List Int).length ∧
      l2.getD p 0 = ([3, 1, 3, 2, 3] : List Int).getD (5 - 1) 0 ∧
      (∀ k, 0 ≤ k → k < p → l2.getD k 0 ≤ l2.getD p 0) ∧
      (∀ k, p < k → k < 5 → l2.getD p 0 < l2.getD k 0)) :=
  ⟨by decide, by decide,
    partitionPass_spec [3, 1, 3, 2, 3] 0 5 (by decide) (by decide)⟩

/-- A successful swap preserves the length. -/
theorem swapList_length (l l3 : List Int) (i j : Nat)
    (h : swapList l i j = some l3) : l3.length = l.length := by
  unfold swapList at h
  cases hgi : l.get? i with
  | none => rw [hgi] at h; simp at h
  | some a =>
    cases hgj : l.get? j with
    | none => rw [hgi, hgj] at h; simp at h
    | some b =>
      rw [hgi, hgj] at h
      simp at h
      rw [← h]
      simp

/-- On a degenerate range (`hi ≤ lo`) the partition pass, when it returns at
all, performs only the final self-swap: the pivot index is reported and the
length is unchanged. -/
theorem partitionPass_degenerate (l : List Int) (lo hi : Nat) (h : hi ≤ lo)
    (l2 : List Int) (p : Nat) (hpp : partitionPass l lo hi = some (l2, p)) :
    l2.length = l.length ∧ p = hi - 1 := by
  have h0 : hi - lo = 0 := by omega
  simp only [partitionPass, h0, partLoop] at hpp
  cases hsw : swapList l (hi - 1) (hi - 1) with
  | none => rw [hsw] at hpp; simp at hpp
  | some l3 =>
    rw [hsw] at hpp
    simp at hpp
    refine ⟨?_, hpp.2.symm⟩
    rw [← hpp.1]
    exact swapList_length l l3 (hi - 1) (hi - 1) hsw

/-- Unfolding of the stack measure for a pushed range. -/
theorem stackMeasure_cons (r : Nat × Nat) (st : List (Nat × Nat)) :
    stackMeasure (r :: st) = 2 ^ (r.2 - r.1) + stackMeasure st := by
  simp [stackMeasure]

/-- The combined contribution of the (conditionally pushed) sub-ranges of a
split, plus one, stays within the contribution of the popped range. -/
theorem push_bound (s1 s2 : Nat) :
    (if s1 > 1 then 2 ^ s1 else 0) + (if s2 > 1 then 2 ^ s2 else 0) + 1 ≤
      2 ^ (s1 + s2 + 1) := by
  have hpos : ∀ n : Nat, 1 ≤ 2 ^ n := fun n => Nat.one_le_two_pow
  have hdouble : ∀ n : Nat, (2:Nat) ^ n + 2 ^ n = 2 ^ (n + 1) := by
    intro n
    rw [pow_succ]
    ring
  by_cases h1 : s1 > 1 <;> by_cases h2 : s2 > 1
  · simp only [h1, h2, if_true]
    have e1 : (2:Nat) ^ 2 ≤ 2 ^ s1 := Nat.pow_le_pow_right (by norm_num) h1
    have e2 : (2:Nat) ^ 2 ≤ 2 ^ s2 := Nat.pow_le_pow_right (by norm_num) h2
    norm_num at e1 e2
    have emul : (2:Nat) ^ (s1 + s2 + 1) = 2 ^ s1 * 2 ^ s2 * 2 := by
      rw [pow_succ, pow_add]
    rw [emul]
    nlinarith [e1, e2]
  · simp only [h1, h2, if_true, if_false]
    have e2 : (2:Nat) ^ (s1 + 1) ≤ 2 ^ (s1 + s2 + 1) :=
      Nat.pow_le_pow_right (by norm_num) (by omega)
    have e3 := hdouble s1
    have e4 := hpos s1
    omega
  · simp only [h1, h2, if_true, if_false]
    have e2 : (2:Nat) ^ (s2 + 1) ≤ 2 ^ (s1 + s2 + 1) :=
      Nat.pow_le_pow_right (by norm_num) (by omega)
    have e3 := hdouble s2
    have e4 := hpos s2
    omega
  · simp only [h1, h2, if_false]
    have e4 := hpos (s1 + s2 + 1)
    omega

/-- With fuel at least the stack measure, the stack loop never exhausts its
fuel: every pushed range is strictly shorter than the popped one (it lies
strictly left or strictly right of the pivot position), and is pushed only
when it has more than one element, so the measure strictly decreases on every
iteration until the stack empties. -/
theorem qsLoop_no_fuel : ∀ (fuel : Nat) (st : List (Nat × Nat)) (l : List Int),
    (∀ r ∈ st, r.2 ≤ l.length) → stackMeasure st ≤ fuel →
    qsLoop fuel st l ≠ .error .fuel := by
  intro fuel
  induction fuel with
  | zero =>
    intro st l hb hm
    cases st with
    | nil => simp [qsLoop]
    | cons r rest =>
      exfalso
      rw [stackMeasure_cons] at hm
      have := Nat.one_le_two_pow (n := r.2 - r.1)
      omega
  | succ fuel ih =>
    intro st l hb hm
    cases st with
    | nil => simp [qsLoop]
    | cons r rest =>
      obtain ⟨lo, hi⟩ := r
      have hhi_len : hi ≤ l.length := hb (lo, hi) (List.mem_cons_self _ _)
      have hm2 : 2 ^ (hi - lo) + stackMeasure rest ≤ fuel + 1 := by
        rw [stackMeasure_cons] at hm
        exact hm
      simp only [qsLoop]
      cases hpp : partitionPass l lo hi with
      | none => simp
      | some l2p =>
        obtain ⟨l2, p⟩ := l2p
        simp only []
        by_cases hrange : lo < hi
        · obtain ⟨l2x, px, hppx, hplo, hphi, hlenx, _, _, _⟩ :=
            partitionPass_main l lo hi hrange hhi_len
          rw [hpp] at hppx
          rw [Option.some_inj, Prod.mk.injEq] at hppx
          obtain ⟨hl2, hpx⟩ := hppx
          subst hl2
          subst hpx
          have hsum : (p - lo) + (hi - (p + 1)) + 1 = hi - lo := by omega
          have hpb := push_bound (p - lo) (hi - (p + 1))
          rw [hsum] at hpb
          by_cases hc1 : hi - (p + 1) > 1 <;> by_cases hc2 : p - lo > 1
          · rw [if_pos hc1, if_pos hc2]
            rw [if_pos hc2, if_pos hc1] at hpb
            apply ih
            · intro r2 hr2
              rw [hlenx]
              rcases List.mem_cons.mp hr2 with h | h2
              · rw [h]
                show p ≤ l.length
                omega
              · rcases List.mem_cons.mp h2 with h | h3
                · rw [h]
                  show hi ≤ l.length
                  omega
                · exact hb r2 (List.mem_cons_of_mem _ h3)
            · simp only [stackMeasure_cons]
              show 2 ^ (p - lo) + (2 ^ (hi - (p + 1)) + stackMeasure rest) ≤ fuel
              omega
          · rw [if_pos hc1, if_neg hc2]
            rw [if_neg hc2, if_pos hc1] at hpb
            apply ih
            · intro r2 hr2
              rw [hlenx]
              rcases List.mem_cons.mp hr2 with h | h2
              · rw [h]
                show hi ≤ l.length
                omega
              · exact hb r2 (List.mem_cons_of_mem _ h2)
            · simp only [stackMeasure_cons]
              show 2 ^ (hi - (p + 1)) + stackMeasure rest ≤ fuel
              omega
          · rw [if_neg hc1, if_pos hc2]
            rw [if_pos hc2, if_neg hc1] at hpb
            apply ih
            · intro r2 hr2
              rw [hlenx]
              rcases List.mem_cons.mp hr2 with h | h2
              · rw [h]
                show p ≤ l.length
                omega
              · exact hb r2 (List.mem_cons_of_mem _ h2)
            · simp only [stackMeasure_cons]
              show 2 ^ (p - lo) + stackMeasure rest ≤ fuel
              omega
          · rw [if_neg hc1, if_neg hc2]
            apply ih
            · intro r2 hr2
              rw [hlenx]
              exact hb r2 (List.mem_cons_of_mem _ hr2)
            · have hone : 1 ≤ 2 ^ (hi - lo) := Nat.one_le_two_pow
              omega
        · obtain ⟨hlen2, hp⟩ :=
            partitionPass_degenerate l lo hi (by omega) l2 p hpp
          have hc1 : ¬ (hi - (p + 1) > 1) := by omega
          have hc2 : ¬ (p - lo > 1) := by omega
          simp only [hc1, hc2, if_false]
          apply ih
          · intro r2 hr2
            rw [hlen2]
            exact hb r2 (List.mem_cons_of_mem _ hr2)
          · have h0 : hi - lo = 0 := by omega
            rw [h0] at hm2
            norm_num at hm2
            omega

/-- C10: `QuickSort` terminates on every finite input: the main loop, run
with fuel strictly above the stack measure, always exits through the
stack-empty guard and never through fuel exhaustion; moreover a successful
partition of a non-empty range places the pivot inside the range, so the two
candidate sub-ranges (strictly right and strictly left of the pivot, pushed
only when they hold more than one element) are both strictly shorter than the
popped range. -/
theorem quickSort_terminates :
    (∀ l : List Int, quickSort l ≠ .error .fuel) ∧
    (∀ (l : List Int) (lo hi : Nat) (l2 : List Int) (p : Nat),
      lo < hi → hi ≤ l.length → partitionPass l lo hi = some (l2, p) →
      lo ≤ p ∧ p < hi ∧ hi - (p + 1) < hi - lo ∧ p - lo < hi - lo) := by
  constructor
  · intro l
    apply qsLoop_no_fuel
    · intro r hr
      rcases List.mem_cons.mp hr with h | h
      · rw [h]
      · simp at h
    · show stackMeasure [(0, l.length)] ≤ 2 ^ (l.length + 1)
      have h1 : stackMeasure [(0, l.length)] = 2 ^ (l.length - 0) := by
        simp [stackMeasure]
      rw [h1]
      exact Nat.pow_le_pow_right (by norm_num) (by omega)
  · intro l lo hi l2 p h1 h2 hpp
    obtain ⟨l2x, px, hppx, hplo, hphi, _, _, _, _⟩ :=
      partitionPass_main l lo hi h1 h2
    rw [hpp, Option.some_inj, Prod.mk.injEq] at hppx
    obtain ⟨hl2, hpx⟩ := hppx
    subst hl2
    subst hpx
    exact ⟨hplo, hphi, by omega, by omega⟩

/-- Witness for the termination statement: the loop of `QuickSort` on the
concrete input `[3,1,2]` does not exhaust its fuel, and the partition of
`[5,1,4]` on `[0, 3)` places the pivot at position 1, with both sub-ranges
strictly shorter. -/
theorem quickSort_terminates_witness :
    quickSort [3, 1, 2] ≠ .error .fuel ∧
    (0 ≤ 1 ∧ 1 < 3 ∧ 3 - (1 + 1) < 3 - 0 ∧ 1 - 0 < 3 - 0) :=
  ⟨quickSort_terminates.1 [3, 1, 2],
    quickSort_terminates.2 [5, 1, 4] 0 3 [1, 4, 5] 1 (by decide) (by decide) rfl⟩

/-- Generic version of reading back a set position. -/
theorem get?_set_self_of_lt {α} (l : List α) (i : Nat) (a : α) (h : i < l.length) :
    (l.set i a).get? i = some a := List.get?_set_eq_of_lt a h

/-- Generic version of reading a different position after a set. -/
theorem get?_set_of_ne {α} (l : List α) {i j : Nat} (a : α) (h : i ≠ j) :
    (l.set i a).get? j = l.get? j := List.get?_set_ne a l h

/-- Generic `getD` through a known `get?`. -/
theorem getD_eq_of_get? {α} (l : List α) (k : Nat) (a d : α)
    (h : l.get? k = some a) : l.getD k d = a := by
  rw [List.getD_eq_get?, h]
  rfl

/-- `getD` at a different position after a set. -/
theorem getD_set_of_ne {α} (l : List α) {i j : Nat} (a d : α) (h : i ≠ j) :
    (l.set i a).getD j d = l.getD j d := by
  rw [List.getD_eq_get?, List.getD_eq_get?, List.get?_set_ne a l h]

/-- The bucket-index listing has as many entries as the counts sum. -/
theorem countsList_length : ∀ (counts : List Nat) (base : Nat),
    (countsList counts base).length = counts.sum
  | [], _ => rfl
  | c :: cs, base => by
    simp [countsList, countsList_length cs (base + 1)]

/-- Every entry of the bucket-index listing is at least the base bucket. -/
theorem countsList_mem_ge : ∀ (counts : List Nat) (base : Nat) (y : Nat),
    y ∈ countsList counts base → base ≤ y
  | [], _, y, h => by simp [countsList] at h
  | c :: cs, base, y, h => by
    simp only [countsList, List.mem_append] at h
    cases h with
    | inl h =>
      rw [List.eq_of_mem_replicate h]
    | inr h =>
      have := countsList_mem_ge cs (base + 1) y h
      omega

/-- The bucket-index listing is ascending. -/
theorem countsList_sorted : ∀ (counts : List Nat) (base : Nat),
    List.Pairwise (· ≤ ·) (countsList counts base)
  | [], _ => List.Pairwise.nil
  | c :: cs, base => by
    simp only [countsList]
    rw [List.pairwise_append]
    refine ⟨List.pairwise_replicate.mpr (Or.inr le_rfl),
      countsList_sorted cs (base + 1), ?_⟩
    intro a ha b hb
    rw [List.eq_of_mem_replicate ha]
    have := countsList_mem_ge cs (base + 1) b hb
    omega

/-- A counts vector summing to zero lists no buckets. -/
theorem countsList_eq_nil : ∀ (counts : List Nat) (base : Nat),
    counts.sum = 0 → countsList counts base = []
  | [], _, _ => rfl
  | c :: cs, base, h => by
    simp only [List.sum_cons, Nat.add_eq_zero] at h
    simp [countsList, h.1, countsList_eq_nil cs (base + 1) h.2]

/-- If every bucket below `j` is empty and bucket `j` holds `c + 1`, the
listing starts with `j` and continues with the listing after one copy of `j`
is removed. -/
theorem countsList_head : ∀ (counts : List Nat) (j c base : Nat),
    (∀ k, k < j → counts.getD k 0 = 0) → counts.get? j = some (c + 1) →
    countsList counts base = (j + base) :: countsList (counts.set j c) base
  | [], j, c, base, _, hj => by simp at hj
  | c0 :: cs, 0, c, base, _, hj => by
    simp only [List.get?] at hj
    injection hj with hj
    subst hj
    simp [countsList, List.replicate_succ]
  | c0 :: cs, j+1, c, base, hz, hj => by
    have h0 : c0 = 0 := by
      have := hz 0 (by omega)
      simpa using this
    subst h0
    simp only [List.get?] at hj
    have IH := countsList_head cs j c (base + 1)
      (fun k hk => by
        have := hz (k + 1) (by omega)
        simpa using this) hj
    simp only [countsList, List.replicate_zero, List.nil_append, List.set]
    rw [IH]
    congr 1
    omega

/-- Incrementing one bucket prepends (up to permutation) one copy of its
index to the listing. -/
theorem countsList_set_succ : ∀ (counts : List Nat) (idx c base : Nat),
    counts.get? idx = some c →
    List.Perm (countsList (counts.set idx (c + 1)) base)
      ((idx + base) :: countsList counts base)
  | [], idx, c, base, h => by simp at h
  | c0 :: cs, 0, c, base, h => by
    simp only [List.get?] at h
    injection h with h
    subst h
    simp [countsList, List.replicate_succ]
  | c0 :: cs, idx+1, c, base, h => by
    simp only [List.get?] at h
    have IH := countsList_set_succ cs idx c (base + 1) h
    simp only [countsList, List.set]
    refine (List.Perm.append_left _ IH).trans ?_
    have harith : idx + (base + 1) = idx + 1 + base := by omega
    rw [← harith]
    exact List.perm_middle

/-- Effect of a set on the counts sum. -/
theorem sum_set_get? : ∀ (counts : List Nat) (i a b : Nat),
    counts.get? i = some a → (counts.set i b).sum + a = counts.sum + b
  | [], _, _, _, h => by simp at h
  | c0 :: cs, 0, a, b, h => by
    simp only [List.get?] at h
    injection h with h
    subst h
    simp [List.sum_cons]
    omega
  | c0 :: cs, i+1, a, b, h => by
    simp only [List.get?] at h
    have IH := sum_set_get? cs i a b h
    simp only [List.set, List.sum_cons]
    omega

/-- The counting pass succeeds when every element lies in the half-open
interval `[min, max)`, and its result records exactly the bucket indices of
the processed elements on top of the initial counts. -/
theorem bucketCount_spec (mn mx : Int) : ∀ (l : List Int) (counts : List Nat),
    (∀ x ∈ l, mn ≤ x ∧ x < mx) → counts.length = (mx - mn).toNat →
    ∃ counts2, bucketCount mn mx l counts = .ok counts2 ∧
      counts2.length = counts.length ∧
      counts2.sum = counts.sum + l.length ∧
      List.Perm (countsList counts2 0)
        ((l.map (fun x => (x - mn).toNat)) ++ countsList counts 0)
  | [], counts, _, _ => ⟨counts, rfl, rfl, by simp, by simp⟩
  | x :: xs, counts, hx, hlen => by
    obtain ⟨hxlo, hxhi⟩ := hx x (List.mem_cons_self _ _)
    have hnot1 : ¬ (x < mn) := by omega
    have hnot2 : ¬ (mx < x) := by omega
    have hidx : (x - mn).toNat < counts.length := by
      rw [hlen]
      omega
    obtain ⟨c, hc⟩ : ∃ c, counts.get? (x - mn).toNat = some c :=
      ⟨counts[(x - mn).toNat],
        by rw [List.get?_eq_getElem?]; exact List.getElem?_eq_getElem hidx⟩
    obtain ⟨counts2, hrun, hlen2, hsum2, hperm2⟩ :=
      bucketCount_spec mn mx xs (counts.set (x - mn).toNat (c + 1))
        (fun y hy => hx y (List.mem_cons_of_mem _ hy)) (by simp [hlen])
    have hsumset : (counts.set (x - mn).toNat (c + 1)).sum = counts.sum + 1 := by
      have := sum_set_get? counts (x - mn).toNat c (c + 1) hc
      omega
    refine ⟨counts2, ?_, ?_, ?_, ?_⟩
    · simp only [bucketCount, if_neg hnot1, if_neg hnot2, hc]
      exact hrun
    · rw [hlen2]
      simp
    · rw [hsum2, hsumset]
      simp
      omega
    · refine hperm2.trans ?_
      have hstep := countsList_set_succ counts (x - mn).toNat c 0 hc
      refine (List.Perm.append_left _ hstep).trans ?_
      simp only [Nat.add_zero, List.map_cons]
      exact List.perm_middle
  termination_by l => l.length

/-- `findBucket` finds the first non-empty bucket at or after `ci` when one
exists, and every bucket it skips is empty. -/
theorem findBucket_spec : ∀ (n : Nat) (counts : List Nat) (ci : Nat),
    counts.length - ci = n →
    (∃ j, ci ≤ j ∧ j < counts.length ∧ counts.getD j 0 ≠ 0) →
    ∃ j c, findBucket counts ci = .ok j ∧ ci ≤ j ∧
      counts.get? j = some (c + 1) ∧
      ∀ k, ci ≤ k → k < j → counts.getD k 0 = 0
  | 0, counts, ci, hn, hex => by
    exfalso
    obtain ⟨j, hj1, hj2, _⟩ := hex
    omega
  | n+1, counts, ci, hn, hex => by
    have hci : ci < counts.length := by omega
    obtain ⟨c0, hc0⟩ : ∃ c0, counts.get? ci = some c0 :=
      ⟨counts[ci], by rw [List.get?_eq_getElem?]; exact List.getElem?_eq_getElem hci⟩
    rw [findBucket]
    split
    · rename_i heq
      rw [hc0] at heq
      simp at heq
    · rename_i heq
      have hgd0 : counts.getD ci 0 = 0 := by
        rw [hc0] at heq
        injection heq with heq2
        rw [getD_eq_of_get? counts ci c0 0 hc0, heq2]
      obtain ⟨j, c, hrun, hj1, hj2, hj3⟩ :=
        findBucket_spec n counts (ci + 1) (by omega)
          (by
            obtain ⟨j, hja, hjb, hjc⟩ := hex
            refine ⟨j, ?_, hjb, hjc⟩
            rcases Nat.eq_or_lt_of_le hja with h | h
            · exfalso
              rw [← h] at hjc
              exact hjc hgd0
            · omega)
      refine ⟨j, c, hrun, by omega, hj2, ?_⟩
      intro k hk1 hk2
      rcases Nat.eq_or_lt_of_le hk1 with h | h
      · rw [← h]
        exact hgd0
      · exact hj3 k (by omega) hk2
    · rename_i m heq
      rw [hc0] at heq
      injection heq with heq2
      refine ⟨ci, m, rfl, le_refl ci, ?_, ?_⟩
      · rw [hc0, heq2]
      · intro k hk1 hk2
        omega

/-- A counts vector with non-zero sum whose buckets below `ci` are all empty
has a non-empty bucket at or after `ci`. -/
theorem exists_nonzero_bucket (counts : List Nat) (ci : Nat)
    (hsum : counts.sum ≠ 0) (hzero : ∀ k, k < ci → counts.getD k 0 = 0) :
    ∃ j, ci ≤ j ∧ j < counts.length ∧ counts.getD j 0 ≠ 0 := by
  by_contra hcon
  push_neg at hcon
  apply hsum
  rw [List.sum_eq_zero_iff]
  intro x hx
  obtain ⟨idx, hidx⟩ := List.mem_iff_get?.mp hx
  have hidxlen : idx < counts.length := by
    cases List.get?_eq_some.mp hidx with
    | intro w _ => exact w
  have hgetd : counts.getD idx 0 = x := getD_eq_of_get? counts idx x 0 hidx
  by_cases hidxci : idx < ci
  · rw [hzero idx hidxci] at hgetd
    omega
  · have := hcon idx (by omega) hidxlen
    omega

/-- The reconstruction pass writes back exactly the ascending listing of the
remaining buckets: with the counts summing to the number of positions left
and every bucket below the cursor empty, it succeeds and produces
`countsList`. -/
theorem bucketRebuild_spec : ∀ (rem : List Int) (counts : List Nat) (ci : Nat),
    counts.sum = rem.length →
    (∀ k, k < ci → counts.getD k 0 = 0) →
    bucketRebuild rem counts ci = .ok ((countsList counts 0).map Int.ofNat)
  | [], counts, ci, hsum, _ => by
    rw [countsList_eq_nil counts 0 (by simpa using hsum)]
    rfl
  | x :: xs, counts, ci, hsum, hz => by
    have hsumne : counts.sum ≠ 0 := by
      simp only [List.length_cons] at hsum
      omega
    obtain ⟨j0, hj0⟩ := exists_nonzero_bucket counts ci hsumne hz
    obtain ⟨j, c, hfb, hcij, hgetj, hzmid⟩ :=
      findBucket_spec (counts.length - ci) counts ci rfl ⟨j0, hj0⟩
    have hallz : ∀ k, k < j → counts.getD k 0 = 0 := by
      intro k hk
      by_cases h : k < ci
      · exact hz k h
      · exact hzmid k (by omega) hk
    have hhead := countsList_head counts j c 0 hallz hgetj
    have hgetd : counts.getD j 0 = c + 1 := getD_eq_of_get? counts j (c + 1) 0 hgetj
    have hsum2 : (counts.set j c).sum = xs.length := by
      have := sum_set_get? counts j (c + 1) c hgetj
      simp only [List.length_cons] at hsum
      omega
    have hz2 : ∀ k, k < j → (counts.set j c).getD k 0 = 0 := by
      intro k hk
      rw [getD_set_of_ne counts c 0 (by omega : j ≠ k)]
      exact hallz k hk
    have hrec := bucketRebuild_spec xs (counts.set j c) j hsum2 hz2
    simp only [bucketRebuild, hfb, hgetd, Nat.add_sub_cancel, hrec]
    rw [hhead]
    simp

/-- Main property of `BucketSort` under the half-open precondition: it
succeeds, and the sequence on return is the ascending listing of the raw
bucket indices `element - min` of the original elements. -/
theorem bucketSort_main (l : List Int) (mn mx : Int) (h1 : mn < mx)
    (h2 : ∀ x ∈ l, mn ≤ x ∧ x < mx) :
    ∃ l2, bucketSort l mn mx = .ok l2 ∧
      List.Pairwise (· ≤ ·) l2 ∧
      List.Perm l2 (l.map (fun x => x - mn)) := by
  have hnot : ¬ (mx ≤ mn) := by omega
  obtain ⟨counts2, hrun, hlen2, hsum2, hperm2⟩ :=
    bucketCount_spec mn mx l (List.replicate (mx - mn).toNat 0) h2 (by simp)
  have hzero : (List.replicate (mx - mn).toNat 0).sum = 0 := by simp
  rw [countsList_eq_nil _ 0 hzero, List.append_nil] at hperm2
  have hsum2b : counts2.sum = l.length := by
    rw [hsum2, hzero]
    omega
  have hreb := bucketRebuild_spec l counts2 0 hsum2b (fun k hk => by omega)
  refine ⟨(countsList counts2 0).map Int.ofNat, ?_, ?_, ?_⟩
  · simp only [bucketSort, if_neg hnot, hrun, hreb]
  · refine List.Pairwise.map Int.ofNat ?_ (countsList_sorted counts2 0)
    intro a b hab
    exact Int.ofNat_le.mpr hab
  · have hmap := hperm2.map Int.ofNat
    refine hmap.trans ?_
    rw [List.map_map]
    have heq : l.map (Int.ofNat ∘ fun x => (x - mn).toNat) =
        l.map (fun x => x - mn) := by
      apply List.map_congr_left
      intro x hx
      have hxlo := (h2 x hx).1
      show ((x - mn).toNat : Int) = x - mn
      exact Int.toNat_of_nonneg (by omega)
    rw [heq]

/-- C3 (amended): with the upper bound read exclusively — `max > min` and
every element in `[min, max)` — every access into the `counts` array (sized
`max - min`) is in bounds in both the counting pass and the reconstruction
pass, so `BucketSort` returns normally instead of failing. -/
theorem bucketSort_in_bounds (l : List Int) (mn mx : Int) (h1 : mn < mx)
    (h2 : ∀ x ∈ l, mn ≤ x ∧ x < mx) :
    ∃ l2, bucketSort l mn mx = .ok l2 := by
  obtain ⟨l2, hrun, _, _⟩ := bucketSort_main l mn mx h1 h2
  exact ⟨l2, hrun⟩

/-- Witness for the amended bounds statement at the sequence `[0]` with
`min = 0`, `max = 1`. -/
theorem bucketSort_in_bounds_witness :
    (0 : Int) < 1 ∧ (∀ x ∈ ([0] : List Int), 0 ≤ x ∧ x < 1) ∧
    (∃ l2, bucketSort [0] 0 1 = .ok l2) :=
  ⟨by decide, by decide, bucketSort_in_bounds [0] 0 1 (by decide) (by decide)⟩

/-- C7 (amended): under `max > min` with every element in the half-open
interval `[min, max)`, the reconstruction pass rewrites the sequence so that
on return it holds, in ascending order and with correct multiplicities, the
raw bucket indices `element - min` of the original elements (so the output
equals the ascending sort of the original values exactly when `min = 0`, and
is otherwise offset by `-min`). -/
theorem bucketSort_sorted_bucket_indices (l : List Int) (mn mx : Int)
    (h1 : mn < mx) (h2 : ∀ x ∈ l, mn ≤ x ∧ x < mx) :
    ∃ l2, bucketSort l mn mx = .ok l2 ∧
      List.Pairwise (· ≤ ·) l2 ∧
      List.Perm l2 (l.map (fun x => x - mn)) :=
  bucketSort_main l mn mx h1 h2

/-- Witness for the amended reconstruction statement on `[4,2,2,3]` with
`min = 2`, `max = 5` (the specification's example with the out-of-range
element `5` replaced by `3` to satisfy the half-open precondition). -/
theorem bucketSort_sorted_bucket_indices_witness :
    (2 : Int) < 5 ∧ (∀ x ∈ ([4, 2, 2, 3] : List Int), 2 ≤ x ∧ x < 5) ∧
    (∃ l2, bucketSort [4, 2, 2, 3] 2 5 = .ok l2 ∧
      List.Pairwise (· ≤ ·) l2 ∧
      List.Perm l2 (([4, 2, 2, 3] : List Int).map (fun x => x - 2))) :=
  ⟨by decide, by decide,
    bucketSort_sorted_bucket_indices [4, 2, 2, 3] 2 5 (by decide) (by decide)⟩

/-- Indexed monotonicity of a sorted list. -/
theorem sorted_getD_le (l : List Int) (hs : List.Pairwise (· ≤ ·) l)
    (i j : Nat) (hij : i ≤ j) (hj : j < l.length) :
    l.getD i 0 ≤ l.getD j 0 := by
  rcases Nat.eq_or_lt_of_le hij with h | h
  · rw [h]
  · have hi : i < l.length := by omega
    have hgi : l.get? i = some (l.get ⟨i, hi⟩) := List.get?_eq_get hi
    have hgj : l.get? j = some (l.get ⟨j, hj⟩) := List.get?_eq_get hj
    rw [getD_eq_of_get? l i _ 0 hgi, getD_eq_of_get? l j _ 0 hgj]
    exact List.pairwise_iff_get.mp hs ⟨i, hi⟩ ⟨j, hj⟩ h

/-- Pointwise facts about the elements of a list from facts at every index. -/
theorem forall_mem_of_getD (l : List Int) (P : Int → Prop)
    (h : ∀ j, j < l.length → P (l.getD j 0)) : ∀ y ∈ l, P y := by
  intro y hy
  obtain ⟨idx, hidx⟩ := List.mem_iff_get?.mp hy
  have hlen : idx < l.length := by
    cases List.get?_eq_some.mp hidx with
    | intro w _ => exact w
  have := h idx hlen
  rw [getD_eq_of_get? l idx y 0 hidx] at this
  exact this

/-- Invariant of the binary-search loop of `InsertionSort`: on a sorted
destination, narrowing `[start, e)` keeps everything left of `start` strictly
below the element and everything from `e` on at least the element; the loop
ends on a single-candidate window. -/
theorem searchLoop_spec (dest : List Int) (elem : Int) :
    ∀ (n : Nat) (start e : Nat), e - start = n → start < e → e ≤ dest.length →
    List.Pairwise (· ≤ ·) dest →
    (∀ j, j < start → dest.getD j 0 < elem) →
    (∀ j, e ≤ j → j < dest.length → elem ≤ dest.getD j 0) →
    ∃ s, searchLoop dest elem start e = (s, s + 1) ∧ s < dest.length ∧
      (∀ j, j < s → dest.getD j 0 < elem) ∧
      (∀ j, s + 1 ≤ j → j < dest.length → elem ≤ dest.getD j 0) := by
  intro n
  induction n using Nat.strong_induction_on with
  | _ n ih =>
    intro start e hn hlt hle hsort hinv1 hinv2
    rw [searchLoop]
    by_cases hcond : 1 < e - start
    · rw [if_pos hcond]
      have hpivlt : start + (e - 1 - start) / 2 < e - 1 + 1 := by omega
      have hpivlen : start + (e - 1 - start) / 2 < dest.length := by omega
      by_cases helem : elem > dest.getD (start + (e - 1 - start) / 2) 0
      · rw [if_pos helem]
        refine ih (e - (start + (e - 1 - start) / 2 + 1)) (by omega)
          (start + (e - 1 - start) / 2 + 1) e rfl (by omega) hle hsort ?_ hinv2
        intro j hj
        by_cases hjs : j < start
        · exact hinv1 j hjs
        · have h1 : dest.getD j 0 ≤ dest.getD (start + (e - 1 - start) / 2) 0 :=
            sorted_getD_le dest hsort j _ (by omega) hpivlen
          omega
      · rw [if_neg helem]
        refine ih (start + (e - 1 - start) / 2 + 1 - start) (by omega)
          start (start + (e - 1 - start) / 2 + 1) rfl (by omega) (by omega)
          hsort hinv1 ?_
        intro j hj hjlen
        have h1 : dest.getD (start + (e - 1 - start) / 2) 0 ≤ dest.getD j 0 :=
          sorted_getD_le dest hsort _ j (by omega) hjlen
        omega
    · rw [if_neg hcond]
      have he : e = start + 1 := by omega
      refine ⟨start, by rw [he], by omega, hinv1, ?_⟩
      intro j hj hjlen
      exact hinv2 j (by omega) hjlen

/-- Inserting at a position that respects the order keeps the list sorted. -/
theorem pairwise_insertIdx : ∀ (l : List Int) (e : Int) (p : Nat),
    p ≤ l.length → List.Pairwise (· ≤ ·) l →
    (∀ j, j < p → l.getD j 0 ≤ e) →
    (∀ j, p ≤ j → j < l.length → e ≤ l.getD j 0) →
    List.Pairwise (· ≤ ·) (l.insertIdx p e)
  | l, e, 0, hp, hsort, _, hright => by
    rw [List.insertIdx_zero]
    refine List.Pairwise.cons ?_ hsort
    exact forall_mem_of_getD l (fun y => e ≤ y) (fun j hj => hright j (by omega) hj)
  | [], e, p+1, hp, _, _, _ => by simp at hp
  | x :: xs, e, p+1, hp, hsort, hleft, hright => by
    rw [List.insertIdx_succ_cons]
    rw [List.pairwise_cons] at hsort ⊢
    constructor
    · intro y hy
      rcases (List.mem_insertIdx (by simpa using hp)).mp hy with h | h
      · rw [h]
        have := hleft 0 (by omega)
        simpa using this
      · exact hsort.1 y h
    · refine pairwise_insertIdx xs e p (by simpa using hp) hsort.2 ?_ ?_
      · intro j hj
        have := hleft (j + 1) (by omega)
        simpa using this
      · intro j hj hjlen
        have := hright (j + 1) (by omega) (by simpa using hjlen)
        simpa using this

/-- One insertion of `InsertionSort` on a sorted non-empty destination stays
sorted, adds exactly the inserted element, and grows the length by one. -/
theorem insertOne_spec (dest : List Int) (elem : Int) (hne : dest ≠ [])
    (hsort : List.Pairwise (· ≤ ·) dest) :
    List.Pairwise (· ≤ ·) (insertOne dest elem) ∧
    List.Perm (insertOne dest elem) (elem :: dest) ∧
    (insertOne dest elem).length = dest.length + 1 := by
  have hlen0 : 0 < dest.length := List.length_pos.mpr hne
  obtain ⟨s, hrun, hslen, hinv1, hinv2⟩ :=
    searchLoop_spec dest elem dest.length 0 dest.length rfl hlen0 le_rfl hsort
      (fun j hj => by omega) (fun j hj hjlen => by omega)
  have hins : insertOne dest elem =
      if elem > dest.getD s 0 then dest.insertIdx (s + 1) elem
      else dest.insertIdx s elem := by
    unfold insertOne
    rw [hrun]
    norm_num
  rw [hins]
  by_cases helem : elem > dest.getD s 0
  · rw [if_pos helem]
    refine ⟨?_, List.perm_insertIdx elem dest (by omega), by rw [List.length_insertIdx]; omega⟩
    refine pairwise_insertIdx dest elem (s + 1) (by omega) hsort ?_ ?_
    · intro j hj
      by_cases hjs : j < s
      · have := hinv1 j hjs
        omega
      · have hjeq : j = s := by omega
        rw [hjeq]
        omega
    · intro j hj hjlen
      exact hinv2 j hj hjlen
  · rw [if_neg helem]
    refine ⟨?_, List.perm_insertIdx elem dest (by omega), by rw [List.length_insertIdx]; omega⟩
    refine pairwise_insertIdx dest elem s (by omega) hsort ?_ ?_
    · intro j hj
      have := hinv1 j hj
      omega
    · intro j hj hjlen
      by_cases hjs : j = s
      · rw [hjs]
        omega
      · exact hinv2 j (by omega) hjlen

/-- On a non-empty range, `IsSorted` returning `true` is equivalent to the
range being pairwise ascending. -/
theorem isSorted_true_iff_pairwise : ∀ (l : List Int), l ≠ [] →
    (isSorted l = some true ↔ List.Pairwise (· ≤ ·) l)
  | [], h => absurd rfl h
  | x :: xs, _ => by
    show some (isSortedLoop x xs) = some true ↔ _
    rw [Option.some_inj, isSortedLoop_eq_chain]
    have hrel : List.Chain (fun a b : Int => ¬ b < a) x xs ↔
        List.Chain (· ≤ ·) x xs := by
      constructor <;> intro h <;>
        exact List.Chain.imp (fun a b hab => by omega) h
    rw [hrel]
    show List.Chain' (fun a b : Int => a ≤ b) (x :: xs) ↔
      List.Pairwise (fun a b : Int => a ≤ b) (x :: xs)
    exact List.chain'_iff_pairwise

/-- Folding the insertions over the source keeps the destination sorted and
accumulates exactly the source elements. -/
theorem foldl_insertOne_spec : ∀ (source dest : List Int), dest ≠ [] →
    List.Pairwise (· ≤ ·) dest →
    List.Pairwise (· ≤ ·) (source.foldl insertOne dest) ∧
    List.Perm (source.foldl insertOne dest) (source ++ dest) ∧
    (source.foldl insertOne dest).length = dest.length + source.length
  | [], _, _, hsort => ⟨hsort, by simp, by simp⟩
  | x :: xs, dest, hne, hsort => by
    obtain ⟨h1, h2, h3⟩ := insertOne_spec dest x hne hsort
    have hne2 : insertOne dest x ≠ [] := by
      intro hcon
      rw [hcon] at h3
      simp at h3
    obtain ⟨g1, g2, g3⟩ := foldl_insertOne_spec xs (insertOne dest x) hne2 h1
    refine ⟨g1, ?_, ?_⟩
    · show List.Perm (xs.foldl insertOne (insertOne dest x)) ((x :: xs) ++ dest)
      refine g2.trans ?_
      refine (List.Perm.append_left xs h2).trans ?_
      exact List.perm_middle
    · show (xs.foldl insertOne (insertOne dest x)).length = _
      rw [g3, h3]
      simp only [List.length_cons]
      omega

/-- C8: under the checked preconditions (destination non-empty and sorted
ascending), `InsertionSort` returns the destination holding all its original
elements plus all source elements in ascending order, growing by exactly one
element per source element; each individual insertion keeps the destination
sorted and grows it by one; an empty or unsorted destination aborts via the
fatal assertions before any insertion. -/
theorem insertionSort_spec :
    (∀ source dest : List Int, dest ≠ [] → List.Pairwise (· ≤ ·) dest →
      ∃ out, insertionSort source dest = some out ∧
        List.Pairwise (· ≤ ·) out ∧
        List.Perm out (source ++ dest) ∧
        out.length = dest.length + source.length) ∧
    (∀ (dest : List Int) (elem : Int), dest ≠ [] → List.Pairwise (· ≤ ·) dest →
      List.Pairwise (· ≤ ·) (insertOne dest elem) ∧
      (insertOne dest elem).length = dest.length + 1) ∧
    (∀ source : List Int, insertionSort source [] = none) ∧
    (∀ source dest : List Int, isSorted dest = some false →
      insertionSort source dest = none) := by
  refine ⟨?_, ?_, ?_, ?_⟩
  · intro source dest hne hsort
    obtain ⟨g1, g2, g3⟩ := foldl_insertOne_spec source dest hne hsort
    refine ⟨source.foldl insertOne dest, ?_, g1, g2, g3⟩
    unfold insertionSort
    have hlen : ¬ (dest.length = 0) := by
      have := List.length_pos.mpr hne
      omega
    rw [if_neg hlen, (isSorted_true_iff_pairwise dest hne).mpr hsort]
  · intro dest elem hne hsort
    obtain ⟨h1, _, h3⟩ := insertOne_spec dest elem hne hsort
    exact ⟨h1, h3⟩
  · intro source
    rfl
  · intro source dest hfalse
    unfold insertionSort
    by_cases hlen : dest.length = 0
    · rw [if_pos hlen]
    · rw [if_neg hlen, hfalse]

/-- Witness for the `InsertionSort` specification: inserting `[5,0,9]` into
the sorted destination `[1,3,7]`. -/
theorem insertionSort_spec_witness :
    ([1, 3, 7] : List Int) ≠ [] ∧
    List.Pairwise (· ≤ ·) ([1, 3, 7] : List Int) ∧
    (∃ out, insertionSort [5, 0, 9] [1, 3, 7] = some out ∧
      List.Pairwise (· ≤ ·) out ∧
      List.Perm out ([5, 0, 9] ++ [1, 3, 7]) ∧
      out.length = ([1, 3, 7] : List Int).length + ([5, 0, 9] : List Int).length) :=
  ⟨by decide, by decide,
    insertionSort_spec.1 [5, 0, 9] [1, 3, 7] (by decide) (by decide)⟩

/-- An empty slice. -/
theorem sliceL_nil {α} (l : List α) (a b : Nat) (h : b ≤ a) : sliceL l a b = [] := by
  simp [sliceL, Nat.sub_eq_zero_of_le h]

/-- Length of an in-range slice. -/
theorem sliceL_length {α} (l : List α) (a b : Nat) (_ha : a ≤ b)
    (hb : b ≤ l.length) : (sliceL l a b).length = b - a := by
  simp [sliceL]
  omega

/-- Element of a slice in terms of the original list. -/
theorem sliceL_get? {α} (l : List α) (a b q : Nat) (hq : q < b - a) :
    (sliceL l a b).get? q = l.get? (a + q) := by
  simp [sliceL, List.get?_take_eq_if, hq, List.get?_drop]

/-- Head decomposition of a non-empty slice. -/
theorem sliceL_cons {α} (l : List α) (a b : Nat) (v : α) (hab : a < b)
    (hv : l.get? a = some v) :
    sliceL l a b = v :: sliceL l (a + 1) b := by
  have hlen : a < l.length := by
    cases List.get?_eq_some.mp hv with
    | intro w _ => exact w
  have hdrop : l.drop a = v :: l.drop (a + 1) := by
    rw [List.drop_eq_getElem_cons hlen]
    have : l[a] = v := by
      have := List.get?_eq_getElem? l a
      rw [hv, List.getElem?_eq_getElem hlen] at this
      injection this with h2
      exact h2.symm
    rw [this]
  have hsub : b - a = (b - (a + 1)) + 1 := by omega
  rw [sliceL, sliceL, hdrop, hsub, List.take_succ_cons]

/-- Adjacent slices concatenate. -/
theorem sliceL_append {α} (l : List α) (a b c : Nat) (hab : a ≤ b)
    (hbc : b ≤ c) :
    sliceL l a b ++ sliceL l b c = sliceL l a c := by
  have hsplit : c - a = (b - a) + (c - b) := by omega
  rw [sliceL, sliceL, sliceL, hsplit, List.take_add, List.drop_drop]
  have : a + (b - a) = b := by omega
  rw [this]

/-- The full slice is the list itself. -/
theorem sliceL_all {α} (l : List α) : sliceL l 0 l.length = l := by
  simp [sliceL]

/-- Length of the tagged sequence. -/
theorem tagged_length : ∀ (ks : List Int) (i : Nat), (tagged ks i).length = ks.length
  | [], _ => rfl
  | _ :: ks, i => by simp [tagged, tagged_length ks (i + 1)]

/-- Elements of the tagged sequence: the key at a position paired with the
offset position. -/
theorem tagged_get? : ∀ (ks : List Int) (i p : Nat),
    (tagged ks i).get? p = (ks.get? p).map (fun k => (k, i + p))
  | [], _, p => by simp [tagged]
  | k :: ks, i, 0 => by simp [tagged]
  | k :: ks, i, p+1 => by
    show (tagged ks (i + 1)).get? p = _
    rw [tagged_get? ks (i + 1) p]
    show (ks.get? p).map (fun k => (k, i + 1 + p)) = (ks.get? p).map (fun k => (k, i + (p + 1)))
    have : i + 1 + p = i + (p + 1) := by omega
    rw [this]

/-- Tag bounds for members of a slice of the tagged sequence. -/
theorem mem_sliceL_tagged (keys : List Int) (a b : Nat) (u : Int × Nat)
    (hmem : u ∈ sliceL (tagged keys 0) a b) : a ≤ u.2 ∧ u.2 < b := by
  obtain ⟨q, hq⟩ := List.mem_iff_get?.mp hmem
  have hqlen : q < (sliceL (tagged keys 0) a b).length := by
    cases List.get?_eq_some.mp hq with
    | intro w _ => exact w
  have hqba : q < b - a := by
    have := List.length_take_le (b - a) ((tagged keys 0).drop a)
    simp only [sliceL] at hqlen
    omega
  rw [sliceL_get? _ a b q hqba, tagged_get? keys 0 (a + q)] at hq
  cases hks : keys.get? (a + q) with
  | none => rw [hks] at hq; simp at hq
  | some k =>
    rw [hks] at hq
    simp at hq
    have : u.2 = a + q := by
      rw [← hq]
    omega

/-- Writing a value appends it to the prefix before the write head. -/
theorem set_take_succ {α} : ∀ (l : List α) (i : Nat) (v : α), i < l.length →
    (l.set i v).take (i + 1) = l.take i ++ [v]
  | [], i, v, h => by simp at h
  | x :: xs, 0, v, h => by simp
  | x :: xs, i+1, v, h => by
    simp only [List.set, List.take_succ_cons, List.cons_append]
    rw [set_take_succ xs i v (by simpa using h)]

/-- The list-level merge emits exactly the elements of both sides. -/
theorem mergeLists_perm {α} (lt : α → α → Bool) :
    ∀ (l r : List α), List.Perm (mergeLists lt l r) (l ++ r)
  | l, [] => by simp [mergeLists]
  | [], r :: rs => by simp [mergeLists]
  | x :: xs, y :: ys => by
    rw [mergeLists]
    by_cases hc : lt y x
    · rw [if_pos hc]
      refine ((mergeLists_perm lt (x :: xs) ys).cons y).trans ?_
      exact List.perm_middle.symm
    · rw [if_neg hc]
      exact (mergeLists_perm lt xs (y :: ys)).cons x
  termination_by l r => l.length + r.length

/-- Members of a merge come from one of the two sides. -/
theorem mergeLists_mem {α} (lt : α → α → Bool) (l r : List α) (z : α)
    (h : z ∈ mergeLists lt l r) : z ∈ l ∨ z ∈ r := by
  have := (mergeLists_perm lt l r).mem_iff.mp h
  simpa using this

/-- Merge with an exhausted left side drains the right side. -/
theorem mergeLists_nil_left {α} (lt : α → α → Bool) (r : List α) :
    mergeLists lt [] r = r := by
  cases r with
  | nil => rw [mergeLists]
  | cons a as =>
    rw [mergeLists]
    simp

/-- Merge with an exhausted right side drains the left side. -/
theorem mergeLists_nil_right {α} (lt : α → α → Bool) (l : List α) :
    mergeLists lt l [] = l := by
  rw [mergeLists]

/-- Merging two key-sorted runs yields a key-sorted run. -/
theorem mergeLists_sorted :
    ∀ (l r : List (Int × Nat)),
    List.Pairwise (fun u v : Int × Nat => u.1 ≤ v.1) l →
    List.Pairwise (fun u v : Int × Nat => u.1 ≤ v.1) r →
    List.Pairwise (fun u v : Int × Nat => u.1 ≤ v.1) (mergeLists pairLt l r)
  | l, [], hl, _ => by
    rw [mergeLists]
    exact hl
  | [], r :: rs, _, hr => by
    rw [mergeLists_nil_left]
    exact hr
  | x :: xs, y :: ys, hl, hr => by
    rw [List.pairwise_cons] at hl hr
    rw [mergeLists]
    by_cases hc : pairLt y x
    · rw [if_pos hc]
      have hyx : y.1 < x.1 := by
        simpa [pairLt] using hc
      rw [List.pairwise_cons]
      refine ⟨?_, mergeLists_sorted (x :: xs) ys (List.pairwise_cons.mpr hl) hr.2⟩
      intro z hz
      rcases mergeLists_mem pairLt (x :: xs) ys z hz with h | h
      · rcases List.mem_cons.mp h with h2 | h2
        · rw [h2]
          omega
        · have := hl.1 z h2
          omega
      · exact hr.1 z h
    · rw [if_neg hc]
      have hxy : x.1 ≤ y.1 := by
        simp [pairLt] at hc
        omega
      rw [List.pairwise_cons]
      refine ⟨?_, mergeLists_sorted xs (y :: ys) hl.2 (List.pairwise_cons.mpr hr)⟩
      intro z hz
      rcases mergeLists_mem pairLt xs (y :: ys) z hz with h | h
      · exact hl.1 z h
      · rcases List.mem_cons.mp h with h2 | h2
        · rw [h2]
          exact hxy
        · have := hr.1 z h2
          omega
  termination_by l r => l.length + r.length

/-- Stability of a single merge: if the left run is key-sorted, both runs
keep equal keys in ascending tag order internally, and every left tag is
below every right tag, then the merge keeps equal keys in ascending tag
order. -/
theorem mergeLists_stable :
    ∀ (l r : List (Int × Nat)),
    List.Pairwise (fun u v : Int × Nat => u.1 ≤ v.1) l →
    List.Pairwise (fun u v : Int × Nat => u.1 = v.1 → u.2 < v.2) l →
    List.Pairwise (fun u v : Int × Nat => u.1 = v.1 → u.2 < v.2) r →
    (∀ u ∈ l, ∀ v ∈ r, u.2 < v.2) →
    List.Pairwise (fun u v : Int × Nat => u.1 = v.1 → u.2 < v.2)
      (mergeLists pairLt l r)
  | l, [], _, hl, _, _ => by
    rw [mergeLists]
    exact hl
  | [], r :: rs, _, _, hr, _ => by
    rw [mergeLists_nil_left]
    exact hr
  | x :: xs, y :: ys, hsort, hl, hr, hcross => by
    rw [List.pairwise_cons] at hl hr
    rw [mergeLists]
    by_cases hc : pairLt y x
    · rw [if_pos hc]
      have hyx : y.1 < x.1 := by
        simpa [pairLt] using hc
      rw [List.pairwise_cons]
      constructor
      · intro z hz hkey
        rcases mergeLists_mem pairLt (x :: xs) ys z hz with h | h
        · exfalso
          rcases List.mem_cons.mp h with h2 | h2
          · rw [h2] at hkey
            omega
          · have := (List.pairwise_cons.mp hsort).1 z h2
            omega
        · exact hr.1 z h hkey
      · refine mergeLists_stable (x :: xs) ys hsort
          (List.pairwise_cons.mpr hl) hr.2 ?_
        intro u hu v hv
        exact hcross u hu v (List.mem_cons_of_mem y hv)
    · rw [if_neg hc]
      rw [List.pairwise_cons]
      constructor
      · intro z hz hkey
        rcases mergeLists_mem pairLt xs (y :: ys) z hz with h | h
        · exact hl.1 z h hkey
        · exact hcross x (List.mem_cons_self x xs) z h
      · refine mergeLists_stable xs (y :: ys)
          (List.pairwise_cons.mp hsort).2 hl.2 (List.pairwise_cons.mpr hr) ?_
        intro u hu v hv
        exact hcross u (List.mem_cons_of_mem x hu) v hv
  termination_by l r => l.length + r.length

/-- A merge has as many elements as its two sides together. -/
theorem mergeLists_length {α} (lt : α → α → Bool) (l r : List α) :
    (mergeLists lt l r).length = l.length + r.length := by
  have := (mergeLists_perm lt l r).length_eq
  simpa using this

/-- The inner loop of `MergeSort` writes exactly the list-level merge of the
two blocks into the write buffer at the write head, leaving everything before
the head and after the written region untouched. -/
theorem mergeInner_eq {α} (lt : α → α → Bool) [Inhabited α] (read : List α) :
    ∀ (steps : Nat) (write : List α) (wh first last firstNext lastNext : Nat),
    steps = (last - first) + (lastNext - firstNext) →
    first ≤ last → firstNext ≤ lastNext →
    last ≤ read.length → lastNext ≤ read.length →
    wh + steps ≤ write.length →
    mergeInner lt read steps write wh first last firstNext lastNext =
      (write.take wh ++
        mergeLists lt (sliceL read first last) (sliceL read firstNext lastNext) ++
        write.drop (wh + steps), wh + steps)
  | 0, write, wh, first, last, firstNext, lastNext,
      hsteps, h1, h2, h3, h4, h5 => by
    have hf : first = last := by omega
    have hfn : firstNext = lastNext := by omega
    rw [mergeInner, sliceL_nil read first last (by omega),
      sliceL_nil read firstNext lastNext (by omega), mergeLists_nil_left]
    simp
  | steps+1, write, wh, first, last, firstNext, lastNext,
      hsteps, h1, h2, h3, h4, h5 => by
    have hwh : wh < write.length := by omega
    rw [mergeInner]
    by_cases hA : firstNext = lastNext
    · rw [if_pos hA]
      have hfl : first < last := by omega
      have hflen : first < read.length := by omega
      obtain ⟨v, hv⟩ : ∃ v, read.get? first = some v :=
        ⟨read[first], by rw [List.get?_eq_getElem?]; exact List.getElem?_eq_getElem hflen⟩
      have hgd : read.getD first default = v := getD_eq_of_get? read first v default hv
      rw [hgd]
      rw [mergeInner_eq lt read steps (write.set wh v) (wh+1) (first+1) last
        firstNext lastNext (by omega) (by omega) h2 h3 h4 (by simp; omega)]
      rw [sliceL_nil read firstNext lastNext (by omega), mergeLists_nil_right,
        mergeLists_nil_right]
      rw [sliceL_cons read first last v hfl hv]
      rw [set_take_succ write wh v hwh, List.drop_set_of_lt v write (by omega)]
      have harith : wh + 1 + steps = wh + (steps + 1) := by omega
      rw [harith]
      simp
    · rw [if_neg hA]
      have hfnl : firstNext < lastNext := by omega
      have hfnlen : firstNext < read.length := by omega
      obtain ⟨y, hy⟩ : ∃ y, read.get? firstNext = some y :=
        ⟨read[firstNext], by rw [List.get?_eq_getElem?]; exact List.getElem?_eq_getElem hfnlen⟩
      have hgdy : read.getD firstNext default = y := getD_eq_of_get? read firstNext y default hy
      by_cases hB : first = last
      · rw [if_pos hB]
        rw [hgdy]
        rw [mergeInner_eq lt read steps (write.set wh y) (wh+1) first last
          (firstNext+1) lastNext (by omega) h1 (by omega) h3 h4 (by simp; omega)]
        rw [sliceL_nil read first last (by omega), mergeLists_nil_left,
          mergeLists_nil_left]
        rw [sliceL_cons read firstNext lastNext y hfnl hy]
        rw [set_take_succ write wh y hwh, List.drop_set_of_lt y write (by omega)]
        have harith : wh + 1 + steps = wh + (steps + 1) := by omega
        rw [harith]
        simp
      · rw [if_neg hB]
        have hfl : first < last := by omega
        have hflen : first < read.length := by omega
        obtain ⟨x, hx⟩ : ∃ x, read.get? first = some x :=
          ⟨read[first], by rw [List.get?_eq_getElem?]; exact List.getElem?_eq_getElem hflen⟩
        have hgdx : read.getD first default = x := getD_eq_of_get? read first x default hx
        rw [hgdx, hgdy]
        rw [sliceL_cons read first last x hfl hx,
          sliceL_cons read firstNext lastNext y hfnl hy]
        rw [mergeLists]
        by_cases hC : lt y x
        · rw [if_pos hC, if_pos hC]
          rw [mergeInner_eq lt read steps (write.set wh y) (wh+1) first last
            (firstNext+1) lastNext (by omega) h1 (by omega) h3 h4 (by simp; omega)]
          rw [sliceL_cons read first last x hfl hx]
          rw [set_take_succ write wh y hwh, List.drop_set_of_lt y write (by omega)]
          have harith : wh + 1 + steps = wh + (steps + 1) := by omega
          rw [harith]
          simp
        · rw [if_neg hC, if_neg hC]
          rw [mergeInner_eq lt read steps (write.set wh x) (wh+1) (first+1) last
            firstNext lastNext (by omega) (by omega) h2 h3 h4 (by simp; omega)]
          rw [sliceL_cons read firstNext lastNext y hfnl hy]
          rw [set_take_succ write wh x hwh, List.drop_set_of_lt x write (by omega)]
          have harith : wh + 1 + steps = wh + (steps + 1) := by omega
          rw [harith]
          simp

/-- `detailMin` is `min`. -/
theorem detailMin_eq_min (a b : Nat) : detailMin a b = min a b := by
  rw [detailMin]
  split <;> omega

/-- A slice starting at or past the end of the list is empty. -/
theorem sliceL_empty_of_ge {α} (l : List α) (a c : Nat) (h : l.length ≤ a) :
    sliceL l a c = [] := by
  rw [sliceL, List.drop_eq_nil_of_le h, List.take_nil]

/-- Two lists of equal length that agree pointwise on `[a, c)` have equal
slices there. -/
theorem sliceL_congr {α} (X Y : List α) (a c : Nat) (_hlen : X.length = Y.length)
    (h : ∀ p, a ≤ p → p < c → X.get? p = Y.get? p) :
    sliceL X a c = sliceL Y a c := by
  apply List.ext
  intro q
  by_cases hq : q < c - a
  · rw [sliceL_get? X a c q hq, sliceL_get? Y a c q hq]
    exact h (a + q) (Nat.le_add_right a q) (by omega)
  · have h1 : (sliceL X a c).length ≤ q := by
      have : (sliceL X a c).length ≤ c - a := by
        simp [sliceL]
      omega
    have h2 : (sliceL Y a c).length ≤ q := by
      have : (sliceL Y a c).length ≤ c - a := by
        simp [sliceL]
      omega
    rw [List.get?_eq_none.mpr h1, List.get?_eq_none.mpr h2]

/-- Reading a patched buffer outside the patched window `[m, e)` gives the
original buffer's entry. -/
theorem get?_patch {α} (w chunk : List α) (m e p : Nat) (hm : m ≤ w.length)
    (he : e = m + chunk.length) (_hew : e ≤ w.length)
    (hp : p < m ∨ e ≤ p) :
    (w.take m ++ chunk ++ w.drop e).get? p = w.get? p := by
  have hA : (w.take m).length = m := by
    simp [List.length_take]
    omega
  rcases hp with hp | hp
  · rw [List.append_assoc, List.get?_append (by rw [hA]; omega)]
    rw [List.get?_take_eq_if]
    simp [hp]
  · rw [List.append_assoc, List.get?_append_right (by rw [hA]; omega)]
    rw [List.get?_append_right (by rw [hA]; omega), List.get?_drop]
    congr 1
    rw [hA]
    omega

/-- The patched window `[m, e)` of a patched buffer is the chunk itself. -/
theorem slice_patch {α} (w chunk : List α) (m e : Nat) (hm : m ≤ w.length)
    (he : e = m + chunk.length) :
    sliceL (w.take m ++ chunk ++ w.drop e) m e = chunk := by
  have hA : (w.take m).length = m := by
    simp [List.length_take]
    omega
  rw [sliceL, List.append_assoc, List.drop_left' hA]
  have hlen : e - m = chunk.length := by omega
  rw [hlen, List.take_left' rfl]

/-- A pass never writes past `covEnd`. -/
theorem le_covEnd (b n : Nat) : (n / b) * b ≤ covEnd b n := by
  rw [covEnd]
  split
  · exact Nat.le_refl _
  · exact Nat.div_mul_le_self n b

/-- `covEnd` never exceeds the sequence length. -/
theorem covEnd_le (b n : Nat) : covEnd b n ≤ n := by
  rw [covEnd]
  split
  · exact Nat.div_mul_le_self n b
  · exact Nat.le_refl n

/-- At block size one the pass covers the whole sequence. -/
theorem covEnd_one (n : Nat) : covEnd 1 n = n := by
  rw [covEnd, Nat.div_one, Nat.mul_one]
  split <;> rfl

/-- The chunk merged for an even pair index ends at or before `covEnd`. -/
theorem chunkEnd_le_covEnd (b n i : Nat) (hi2 : i % 2 = 0) (hi : i < n / b) :
    min ((i + 2) * b) n ≤ covEnd b n := by
  rw [covEnd]
  split
  · rename_i h
    have h2 : i + 2 ≤ n / b := by omega
    calc min ((i + 2) * b) n ≤ (i + 2) * b := Nat.min_le_left _ _
      _ ≤ (n / b) * b := Nat.mul_le_mul_right b h2
  · exact Nat.min_le_right _ _

/-- Whole blocks end at or before the sequence length. -/
theorem block_le (b n i : Nat) (hi : i + 1 ≤ n / b) : (i + 1) * b ≤ n :=
  le_trans (Nat.mul_le_mul_right b hi) (Nat.div_mul_le_self n b)

/-- Past the last full pair of blocks, either `covEnd` or the sequence length
bounds the pair start. -/
theorem covEnd_or (b n j : Nat) (h : n / b ≤ 2 * j) :
    covEnd b n ≤ 2 * j * b ∨ n ≤ 2 * j * b := by
  rw [covEnd]
  split
  · exact Or.inl (Nat.mul_le_mul_right b h)
  · rename_i hodd
    right
    have h1 : n / b + 1 ≤ 2 * j := by omega
    have h2 : (n / b + 1) * b ≤ 2 * j * b := Nat.mul_le_mul_right b h1
    have hb : 0 < b := by
      by_contra hb
      have hb0 : b = 0 := by omega
      subst hb0
      simp at hodd
    have hmod : n % b < b := Nat.mod_lt n hb
    have hdm : b * (n / b) + n % b = n := Nat.div_add_mod n b
    have hsm : (n / b + 1) * b = n / b * b + b := Nat.succ_mul _ _
    have hcomm : b * (n / b) = n / b * b := Nat.mul_comm _ _
    omega

/-- Out of fuel, a pass returns the write buffer. -/
theorem mergePassAux_zero {α} (lt : α → α → Bool) [Inhabited α] (read : List α)
    (b n nb i wh : Nat) (w : List α) :
    mergePassAux lt read b n nb 0 i w wh = w := rfl

/-- When the pair index reaches `numBlocks`, the pass stops. -/
theorem mergePassAux_stop {α} (lt : α → α → Bool) [Inhabited α] (read : List α)
    (b n nb k i wh : Nat) (w : List α) (hi : ¬ i < nb) :
    mergePassAux lt read b n nb (k+1) i w wh = w := by
  rw [mergePassAux, if_neg hi]

/-- One iteration of the pass loop: merge the pair of blocks at `i`, then
continue at `i + 2` from the updated buffer and write head. -/
theorem mergePassAux_step {α} (lt : α → α → Bool) [Inhabited α] (read : List α)
    (b n nb k i wh : Nat) (w : List α) (hi : i < nb) :
    mergePassAux lt read b n nb (k+1) i w wh =
      mergePassAux lt read b n nb k (i+2)
        (mergeInner lt read (((i+1) * b - i * b) + (detailMin ((i+2) * b) n - (i+1) * b))
          w wh (i * b) ((i+1) * b) ((i+1) * b) (detailMin ((i+2) * b) n)).1
        (mergeInner lt read (((i+1) * b - i * b) + (detailMin ((i+2) * b) n - (i+1) * b))
          w wh (i * b) ((i+1) * b) ((i+1) * b) (detailMin ((i+2) * b) n)).2 := by
  rw [mergePassAux, if_pos hi]

/-- Full characterization of a `MergeSort` pass from pair index `i`: the
result keeps the length, leaves positions below `i * blockSize` and positions
from `covEnd` on untouched, and fills each merged pair region with the
list-level merge of its two blocks. -/
theorem mergePassAux_spec {α} (lt : α → α → Bool) [Inhabited α] (read : List α)
    (b n : Nat) (hr : read.length = n) :
    ∀ (k i : Nat) (write : List α),
    n / b ≤ i + 2 * k → i % 2 = 0 → write.length = n →
    (mergePassAux lt read b n (n / b) k i write (min (i * b) n)).length = n ∧
    (∀ p, p < i * b ∨ covEnd b n ≤ p →
      (mergePassAux lt read b n (n / b) k i write (min (i * b) n)).get? p =
        write.get? p) ∧
    (∀ j, i ≤ 2 * j → 2 * j < n / b →
      sliceL (mergePassAux lt read b n (n / b) k i write (min (i * b) n))
          (2 * j * b) (min ((2 * j + 2) * b) n) =
        mergeLists lt (sliceL read (2 * j * b) ((2 * j + 1) * b))
          (sliceL read ((2 * j + 1) * b) (min ((2 * j + 2) * b) n))) := by
  intro k
  induction k with
  | zero =>
    intro i write hk hi2 hw
    rw [mergePassAux_zero]
    refine ⟨hw, fun p _ => rfl, fun j hj1 hj2 => ?_⟩
    omega
  | succ k ih =>
    intro i write hk hi2 hw
    by_cases hi : i < n / b
    · have hsucc1 : (i + 1) * b = i * b + b := Nat.succ_mul i b
      have hsucc2 : (i + 2) * b = (i + 1) * b + b := Nat.succ_mul (i+1) b
      have h1b : (i + 1) * b ≤ n := block_le b n i hi
      have hb : 0 < b := by
        by_contra hb0
        have : b = 0 := by omega
        subst this
        simp at hi
      have hminw : min (i * b) n = i * b := by omega
      rw [hminw, mergePassAux_step lt read b n (n / b) k i (i * b) write hi,
        detailMin_eq_min]
      have hlastn : min ((i + 2) * b) n ≤ n := Nat.min_le_right _ _
      have hlast1 : (i + 1) * b ≤ min ((i + 2) * b) n := by omega
      have hres := mergeInner_eq lt read
        (((i+1) * b - i * b) + (min ((i+2) * b) n - (i+1) * b)) write (i * b)
        (i * b) ((i+1) * b) ((i+1) * b) (min ((i+2) * b) n)
        rfl (by omega) (by omega) (by omega) (by omega) (by omega)
      rw [hres]
      have hE : i * b + (((i+1) * b - i * b) + (min ((i+2) * b) n - (i+1) * b)) =
          min ((i + 2) * b) n := by omega
      rw [hE]
      have hchunk : (mergeLists lt (sliceL read (i * b) ((i+1) * b))
          (sliceL read ((i+1) * b) (min ((i+2) * b) n))).length =
          min ((i + 2) * b) n - i * b := by
        rw [mergeLists_length,
          sliceL_length read (i * b) ((i+1) * b) (by omega) (by omega),
          sliceL_length read ((i+1) * b) (min ((i+2) * b) n) (by omega) (by omega)]
        omega
      have hW2 : (write.take (i * b) ++
          mergeLists lt (sliceL read (i * b) ((i+1) * b))
            (sliceL read ((i+1) * b) (min ((i+2) * b) n)) ++
          write.drop (min ((i + 2) * b) n)).length = n := by
        rw [List.length_append, List.length_append, List.length_take,
          List.length_drop, hchunk]
        omega
      have hmin2 : min ((i + 2) * b) n = min ((i + 2) * b) n := rfl
      obtain ⟨L1, L2, L3⟩ := ih (i + 2)
        (write.take (i * b) ++
          mergeLists lt (sliceL read (i * b) ((i+1) * b))
            (sliceL read ((i+1) * b) (min ((i+2) * b) n)) ++
          write.drop (min ((i + 2) * b) n))
        (by omega) (by omega) hW2
      refine ⟨L1, ?_, ?_⟩
      · intro p hp
        have hcov : min ((i + 2) * b) n ≤ covEnd b n :=
          chunkEnd_le_covEnd b n i hi2 hi
        rw [L2 p (by omega)]
        exact get?_patch write _ (i * b) (min ((i + 2) * b) n) p (by omega)
          (by omega) (by omega) (by omega)
      · intro j hj1 hj2
        by_cases hj : 2 * j = i
        · rw [hj]
          have hcongr : sliceL
              (mergePassAux lt read b n (n / b) k (i + 2)
                (write.take (i * b) ++
                  mergeLists lt (sliceL read (i * b) ((i+1) * b))
                    (sliceL read ((i+1) * b) (min ((i+2) * b) n)) ++
                  write.drop (min ((i + 2) * b) n)) (min ((i + 2) * b) n))
              (i * b) (min ((i + 2) * b) n) =
              sliceL (write.take (i * b) ++
                  mergeLists lt (sliceL read (i * b) ((i+1) * b))
                    (sliceL read ((i+1) * b) (min ((i+2) * b) n)) ++
                  write.drop (min ((i + 2) * b) n))
                (i * b) (min ((i + 2) * b) n) := by
            refine sliceL_congr _ _ _ _ (by omega) ?_
            intro p hp1 hp2
            exact L2 p (by omega)
          rw [hcongr, slice_patch write _ (i * b) (min ((i + 2) * b) n)
            (by omega) (by omega)]
        · have hj2' : i + 2 ≤ 2 * j := by omega
          exact L3 j (by omega) hj2
    · rw [mergePassAux_stop lt read b n (n / b) k i (min (i * b) n) write hi]
      refine ⟨hw, fun p _ => rfl, fun j hj1 hj2 => ?_⟩
      omega

/-- A `MergeSort` pass as invoked by the outer loop: pair index `0`, write
head `0`, fuel `numBlocks + 1`. -/
theorem mergePass_spec {α} (lt : α → α → Bool) [Inhabited α]
    (read write : List α) (b n : Nat) (hr : read.length = n)
    (hw : write.length = n) :
    (mergePassAux lt read b n (n / b) (n / b + 1) 0 write 0).length = n ∧
    (∀ p, covEnd b n ≤ p →
      (mergePassAux lt read b n (n / b) (n / b + 1) 0 write 0).get? p =
        write.get? p) ∧
    (∀ j, 2 * j < n / b →
      sliceL (mergePassAux lt read b n (n / b) (n / b + 1) 0 write 0)
          (2 * j * b) (min ((2 * j + 2) * b) n) =
        mergeLists lt (sliceL read (2 * j * b) ((2 * j + 1) * b))
          (sliceL read ((2 * j + 1) * b) (min ((2 * j + 2) * b) n))) := by
  have h := mergePassAux_spec lt read b n hr (n / b + 1) 0 write
    (by omega) (by omega) hw
  rw [show min (0 * b) n = 0 by simp] at h
  obtain ⟨h1, h2, h3⟩ := h
  exact ⟨h1, fun p hp => h2 p (Or.inr hp), fun j hj => h3 j (Nat.zero_le _) hj⟩

/-- Per-block permutations with a common reference combine across the shared
boundary of two adjacent blocks. -/
theorem perm_combine {α} (X O : List α) (a mid c n : Nat) (ham : a ≤ mid)
    (hmc : mid ≤ c)
    (h1 : List.Perm (sliceL X a (min mid n)) (sliceL O a (min mid n)))
    (h2 : List.Perm (sliceL X mid (min c n)) (sliceL O mid (min c n))) :
    List.Perm (sliceL X a (min c n)) (sliceL O a (min c n)) := by
  by_cases hm : mid ≤ n
  · rw [show min mid n = mid by omega] at h1
    rw [← sliceL_append X a mid (min c n) ham (by omega),
      ← sliceL_append O a mid (min c n) ham (by omega)]
    exact h1.append h2
  · rw [show min mid n = n by omega] at h1
    rw [show min c n = n by omega]
    exact h1

/-- Per-block stability plus per-block permutation with the position-tagged
original combine across the shared boundary of two adjacent blocks: tags left
of the boundary are all smaller than tags right of it. -/
theorem stab_combine (ks : List Int) (X : List (Int × Nat)) (a mid c n : Nat)
    (ham : a ≤ mid) (hmc : mid ≤ c)
    (hp1 : List.Perm (sliceL X a (min mid n))
      (sliceL (tagged ks 0) a (min mid n)))
    (hp2 : List.Perm (sliceL X mid (min c n))
      (sliceL (tagged ks 0) mid (min c n)))
    (hs1 : List.Pairwise (fun u v : Int × Nat => u.1 = v.1 → u.2 < v.2)
      (sliceL X a (min mid n)))
    (hs2 : List.Pairwise (fun u v : Int × Nat => u.1 = v.1 → u.2 < v.2)
      (sliceL X mid (min c n))) :
    List.Pairwise (fun u v : Int × Nat => u.1 = v.1 → u.2 < v.2)
      (sliceL X a (min c n)) := by
  by_cases hm : mid ≤ n
  · rw [show min mid n = mid by omega] at hp1 hs1
    rw [← sliceL_append X a mid (min c n) ham (by omega)]
    rw [List.pairwise_append]
    refine ⟨hs1, hs2, ?_⟩
    intro u hu v hv
    have hu2 := mem_sliceL_tagged ks a mid u (hp1.mem_iff.mp hu)
    have hv2 := mem_sliceL_tagged ks mid (min c n) v (hp2.mem_iff.mp hv)
    intro _
    omega
  · rw [show min mid n = n by omega] at hs1
    rw [show min c n = n by omega]
    exact hs1

/-- Out of fuel, the outer loop returns the read buffer. -/
theorem mergeLoop_zero {α} (lt : α → α → Bool) [Inhabited α]
    (read write : List α) (b n : Nat) :
    mergeLoop lt 0 read write b n = read := rfl

/-- Once the block size reaches the sequence length, the outer loop returns
the read buffer (the final copy back into the collection). -/
theorem mergeLoop_stop {α} (lt : α → α → Bool) [Inhabited α] (fuel : Nat)
    (read write : List α) (b n : Nat) (h : ¬ b < n) :
    mergeLoop lt (fuel + 1) read write b n = read := by
  rw [mergeLoop, if_neg h]

/-- One outer iteration: run a pass into the write buffer, swap the buffers,
double the block size. -/
theorem mergeLoop_step {α} (lt : α → α → Bool) [Inhabited α] (fuel : Nat)
    (read write : List α) (b n : Nat) (h : b < n) :
    mergeLoop lt (fuel + 1) read write b n =
      mergeLoop lt fuel
        (mergePassAux lt read b n (n / b) (n / b + 1) 0 write 0) read
        (b + b) n := by
  rw [mergeLoop, if_pos h]

/-- When the block size covers the whole sequence, the block-zero invariants
are statements about the whole buffer. -/
theorem loop_exit_extract (ks : List Int) (n b : Nat)
    (read : List (Int × Nat)) (hkn : ks.length = n) (hre : read.length = n)
    (hnb : n ≤ b)
    (R1 : ∀ j : Nat, List.Perm (sliceL read (j * b) (min ((j + 1) * b) n))
      (sliceL (tagged ks 0) (j * b) (min ((j + 1) * b) n)))
    (R2 : ∀ j : Nat, List.Pairwise (fun u v : Int × Nat => u.1 = v.1 → u.2 < v.2)
      (sliceL read (j * b) (min ((j + 1) * b) n))) :
    List.Perm read (tagged ks 0) ∧
    List.Pairwise (fun u v : Int × Nat => u.1 = v.1 → u.2 < v.2) read := by
  have e1 : (0 : Nat) * b = 0 := by omega
  have e2 : min ((0 + 1) * b) n = n := by omega
  have h1 := R1 0
  have h2 := R2 0
  rw [e1, e2] at h1 h2
  have hx : sliceL read 0 n = read := by
    rw [← hre]
    exact sliceL_all read
  have ht : sliceL (tagged ks 0) 0 n = tagged ks 0 := by
    rw [show n = (tagged ks 0).length by rw [tagged_length]; omega]
    exact sliceL_all _
  rw [hx, ht] at h1
  rw [hx] at h2
  exact ⟨h1, h2⟩

/-- Invariant of the outer `MergeSort` loop on position-tagged keys: at block
size `b`, every `b`-block of the read buffer is a permutation of the same
block of the tagged original and is tag-increasing on equal keys; blocks
ending inside the still-covered bound `m` are key-sorted; the write buffer
satisfies the permutation and tag conditions on blocks past `covEnd`.  Under
these the loop result is a permutation of the tagged original that is
tag-increasing on equal keys. -/
theorem mergeLoop_inv (ks : List Int) (n : Nat) (hkn : ks.length = n) :
    ∀ (fuel : Nat), ∀ (b m : Nat), ∀ (read write : List (Int × Nat)),
    0 < b → n ≤ b * 2 ^ fuel →
    read.length = n → write.length = n →
    (n / b) * b ≤ m → m ≤ n →
    (∀ j : Nat, List.Perm (sliceL read (j * b) (min ((j + 1) * b) n))
      (sliceL (tagged ks 0) (j * b) (min ((j + 1) * b) n))) →
    (∀ j : Nat, List.Pairwise (fun u v : Int × Nat => u.1 = v.1 → u.2 < v.2)
      (sliceL read (j * b) (min ((j + 1) * b) n))) →
    (∀ j : Nat, min ((j + 1) * b) n ≤ m →
      List.Pairwise (fun u v : Int × Nat => u.1 ≤ v.1)
        (sliceL read (j * b) (min ((j + 1) * b) n))) →
    (∀ j : Nat, covEnd b n ≤ j * b →
      List.Perm (sliceL write (j * b) (min ((j + 1) * b) n))
        (sliceL (tagged ks 0) (j * b) (min ((j + 1) * b) n))) →
    (∀ j : Nat, covEnd b n ≤ j * b →
      List.Pairwise (fun u v : Int × Nat => u.1 = v.1 → u.2 < v.2)
        (sliceL write (j * b) (min ((j + 1) * b) n))) →
    List.Perm (mergeLoop pairLt fuel read write b n) (tagged ks 0) ∧
    List.Pairwise (fun u v : Int × Nat => u.1 = v.1 → u.2 < v.2)
      (mergeLoop pairLt fuel read write b n) := by
  intro fuel
  induction fuel with
  | zero =>
    intro b m read write hb hfuel hre hwr hm1 hm2 R1 R2 R3 W1 W2
    rw [mergeLoop_zero]
    refine loop_exit_extract ks n b read hkn hre ?_ R1 R2
    have hp0 : b * 2 ^ 0 = b := by simp
    omega
  | succ fuel ih =>
    intro b m read write hb hfuel hre hwr hm1 hm2 R1 R2 R3 W1 W2
    by_cases hbn : b < n
    · rw [mergeLoop_step pairLt fuel read write b n hbn]
      obtain ⟨P1, P2, P3⟩ := mergePass_spec pairLt read write b n hre hwr
      refine ih (b + b) (min m (covEnd b n)) _ read (by omega) ?_ P1 hre
        ?_ ?_ ?_ ?_ ?_ ?_ ?_
      · -- fuel bound for the doubled block size
        have hp : b * 2 ^ (fuel + 1) = (b + b) * 2 ^ fuel := by
          rw [pow_succ]
          ring
        omega
      · -- the doubled-block full region stays below the new bound
        have d1 : n / (b + b) = n / b / 2 := by
          rw [show b + b = b * 2 by ring, ← Nat.div_div_eq_div_mul]
        rw [d1]
        have d2 : n / b / 2 * (b + b) = n / b / 2 * 2 * b := by ring
        rw [d2]
        have d3 : n / b / 2 * 2 ≤ n / b := Nat.div_mul_le_self (n / b) 2
        have d4 : n / b / 2 * 2 * b ≤ n / b * b := Nat.mul_le_mul_right b d3
        have d5 := le_covEnd b n
        omega
      · omega
      · -- permutation per doubled block
        intro j
        rw [show j * (b + b) = 2 * j * b by ring,
          show (j + 1) * (b + b) = (2 * j + 2) * b by ring]
        have er1 : (2 * j + 1) * b = 2 * j * b + b := by ring
        have er2 : (2 * j + 2) * b = 2 * j * b + b + b := by ring
        by_cases hcov : 2 * j < n / b
        · rw [P3 j hcov]
          have hfb1 : (2 * j + 1) * b ≤ n := block_le b n (2 * j) (by omega)
          have e3 : min ((2 * j + 1) * b) n = (2 * j + 1) * b := by omega
          have h1 := R1 (2 * j)
          rw [e3] at h1
          have h2 := R1 (2 * j + 1)
          rw [show (2 * j + 1 + 1) * b = (2 * j + 2) * b by ring] at h2
          refine (mergeLists_perm pairLt _ _).trans ?_
          refine (h1.append h2).trans ?_
          rw [sliceL_append (tagged ks 0) (2 * j * b) ((2 * j + 1) * b)
            (min ((2 * j + 2) * b) n) (by omega) (by omega)]
        · rcases covEnd_or b n j (by omega) with hg | hg
          · have hlen : (mergePassAux pairLt read b n (n / b) (n / b + 1) 0
                write 0).length = write.length := by
              rw [P1, hwr]
            have hsl : sliceL (mergePassAux pairLt read b n (n / b) (n / b + 1)
                0 write 0) (2 * j * b) (min ((2 * j + 2) * b) n) =
                sliceL write (2 * j * b) (min ((2 * j + 2) * b) n) :=
              sliceL_congr _ _ _ _ hlen (fun p hp1 hp2 => P2 p (by omega))
            rw [hsl]
            have hw1 := W1 (2 * j) hg
            have hw2 := W1 (2 * j + 1) (by omega)
            rw [show (2 * j + 1 + 1) * b = (2 * j + 2) * b by ring] at hw2
            exact perm_combine write (tagged ks 0) (2 * j * b) ((2 * j + 1) * b)
              ((2 * j + 2) * b) n (by omega) (by omega) hw1 hw2
          · have hsO : sliceL (mergePassAux pairLt read b n (n / b) (n / b + 1)
                0 write 0) (2 * j * b) (min ((2 * j + 2) * b) n) = [] :=
              sliceL_empty_of_ge _ _ _ (by omega)
            have hsT : sliceL (tagged ks 0) (2 * j * b)
                (min ((2 * j + 2) * b) n) = [] :=
              sliceL_empty_of_ge _ _ _ (by rw [tagged_length]; omega)
            rw [hsO, hsT]
      · -- tag order on equal keys per doubled block
        intro j
        rw [show j * (b + b) = 2 * j * b by ring,
          show (j + 1) * (b + b) = (2 * j + 2) * b by ring]
        have er1 : (2 * j + 1) * b = 2 * j * b + b := by ring
        have er2 : (2 * j + 2) * b = 2 * j * b + b + b := by ring
        by_cases hcov : 2 * j < n / b
        · rw [P3 j hcov]
          have hfb1 : (2 * j + 1) * b ≤ n := block_le b n (2 * j) (by omega)
          have e3 : min ((2 * j + 1) * b) n = (2 * j + 1) * b := by omega
          have h5b : (2 * j + 1) * b ≤ n / b * b :=
            Nat.mul_le_mul_right b (by omega)
          have hsrtL := R3 (2 * j) (by omega)
          rw [e3] at hsrtL
          have hstL := R2 (2 * j)
          rw [e3] at hstL
          have hstR := R2 (2 * j + 1)
          rw [show (2 * j + 1 + 1) * b = (2 * j + 2) * b by ring] at hstR
          have h1 := R1 (2 * j)
          rw [e3] at h1
          have h2 := R1 (2 * j + 1)
          rw [show (2 * j + 1 + 1) * b = (2 * j + 2) * b by ring] at h2
          refine mergeLists_stable _ _ hsrtL hstL hstR ?_
          intro u hu v hv
          have hu2 := mem_sliceL_tagged ks (2 * j * b) ((2 * j + 1) * b) u
            (h1.mem_iff.mp hu)
          have hv2 := mem_sliceL_tagged ks ((2 * j + 1) * b)
            (min ((2 * j + 2) * b) n) v (h2.mem_iff.mp hv)
          omega
        · rcases covEnd_or b n j (by omega) with hg | hg
          · have hlen : (mergePassAux pairLt read b n (n / b) (n / b + 1) 0
                write 0).length = write.length := by
              rw [P1, hwr]
            have hsl : sliceL (mergePassAux pairLt read b n (n / b) (n / b + 1)
                0 write 0) (2 * j * b) (min ((2 * j + 2) * b) n) =
                sliceL write (2 * j * b) (min ((2 * j + 2) * b) n) :=
              sliceL_congr _ _ _ _ hlen (fun p hp1 hp2 => P2 p (by omega))
            rw [hsl]
            have hw1 := W1 (2 * j) hg
            have hw2 := W1 (2 * j + 1) (by omega)
            rw [show (2 * j + 1 + 1) * b = (2 * j + 2) * b by ring] at hw2
            have hs1 := W2 (2 * j) hg
            have hs2 := W2 (2 * j + 1) (by omega)
            rw [show (2 * j + 1 + 1) * b = (2 * j + 2) * b by ring] at hs2
            exact stab_combine ks write (2 * j * b) ((2 * j + 1) * b)
              ((2 * j + 2) * b) n (by omega) (by omega) hw1 hw2 hs1 hs2
          · have hsO : sliceL (mergePassAux pairLt read b n (n / b) (n / b + 1)
                0 write 0) (2 * j * b) (min ((2 * j + 2) * b) n) = [] :=
              sliceL_empty_of_ge _ _ _ (by omega)
            rw [hsO]
            exact List.Pairwise.nil
      · -- key order on doubled blocks still inside the new bound
        intro j
        rw [show j * (b + b) = 2 * j * b by ring,
          show (j + 1) * (b + b) = (2 * j + 2) * b by ring]
        intro hend
        have er1 : (2 * j + 1) * b = 2 * j * b + b := by ring
        have er2 : (2 * j + 2) * b = 2 * j * b + b + b := by ring
        by_cases hcov : 2 * j < n / b
        · rw [P3 j hcov]
          have hfb1 : (2 * j + 1) * b ≤ n := block_le b n (2 * j) (by omega)
          have e3 : min ((2 * j + 1) * b) n = (2 * j + 1) * b := by omega
          have h5b : (2 * j + 1) * b ≤ n / b * b :=
            Nat.mul_le_mul_right b (by omega)
          have hsrtL := R3 (2 * j) (by omega)
          rw [e3] at hsrtL
          have hsrtR := R3 (2 * j + 1) (by
            rw [show (2 * j + 1 + 1) * b = (2 * j + 2) * b by ring]
            omega)
          rw [show (2 * j + 1 + 1) * b = (2 * j + 2) * b by ring] at hsrtR
          exact mergeLists_sorted _ _ hsrtL hsrtR
        · have hc2 : min ((2 * j + 2) * b) n ≤ 2 * j * b := by
            rcases covEnd_or b n j (by omega) with hg | hg <;> omega
          rw [sliceL_nil _ _ _ hc2]
          exact List.Pairwise.nil
      · -- write-buffer permutation on blocks past the new covEnd
        intro j _
        rw [show j * (b + b) = 2 * j * b by ring,
          show (j + 1) * (b + b) = (2 * j + 2) * b by ring]
        have er1 : (2 * j + 1) * b = 2 * j * b + b := by ring
        have er2 : (2 * j + 2) * b = 2 * j * b + b + b := by ring
        have hw1 := R1 (2 * j)
        have hw2 := R1 (2 * j + 1)
        rw [show (2 * j + 1 + 1) * b = (2 * j + 2) * b by ring] at hw2
        exact perm_combine read (tagged ks 0) (2 * j * b) ((2 * j + 1) * b)
          ((2 * j + 2) * b) n (by omega) (by omega) hw1 hw2
      · -- write-buffer tag order on blocks past the new covEnd
        intro j _
        rw [show j * (b + b) = 2 * j * b by ring,
          show (j + 1) * (b + b) = (2 * j + 2) * b by ring]
        have er1 : (2 * j + 1) * b = 2 * j * b + b := by ring
        have er2 : (2 * j + 2) * b = 2 * j * b + b + b := by ring
        have hw1 := R1 (2 * j)
        have hw2 := R1 (2 * j + 1)
        rw [show (2 * j + 1 + 1) * b = (2 * j + 2) * b by ring] at hw2
        have hs1 := R2 (2 * j)
        have hs2 := R2 (2 * j + 1)
        rw [show (2 * j + 1 + 1) * b = (2 * j + 2) * b by ring] at hs2
        exact stab_combine ks read (2 * j * b) ((2 * j + 1) * b)
          ((2 * j + 2) * b) n (by omega) (by omega) hw1 hw2 hs1 hs2
    · rw [mergeLoop_stop pairLt fuel read write b n hbn]
      exact loop_exit_extract ks n b read hkn hre (by omega) R1 R2

/-- Lists of at most one element are vacuously pairwise related. -/
theorem pairwise_of_short {α} (R : α → α → Prop) (l : List α)
    (h : l.length ≤ 1) : List.Pairwise R l := by
  cases l with
  | nil => exact List.Pairwise.nil
  | cons x xs =>
    cases xs with
    | nil => exact List.pairwise_singleton R x
    | cons y ys => simp at h

/-- `MergeSort` on position-tagged keys compared only by key returns a
permutation of the input in which equal keys keep ascending tags. -/
theorem mergeSortP_stable (ks : List Int) :
    List.Perm (mergeSortP (tagged ks 0)) (tagged ks 0) ∧
    List.Pairwise (fun u v : Int × Nat => u.1 = v.1 → u.2 < v.2)
      (mergeSortP (tagged ks 0)) := by
  rw [mergeSortP, mergeSort]
  have hkn : ks.length = (tagged ks 0).length := (tagged_length ks 0).symm
  refine mergeLoop_inv ks (tagged ks 0).length hkn
    ((tagged ks 0).length + 1) 1 (tagged ks 0).length (tagged ks 0)
    (List.replicate (tagged ks 0).length default)
    (by omega) ?_ rfl (by simp) ?_ (Nat.le_refl _) ?_ ?_ ?_ ?_ ?_
  · have h1 := Nat.lt_two_pow (tagged ks 0).length
    have h2 : 2 ^ (tagged ks 0).length ≤ 2 ^ ((tagged ks 0).length + 1) :=
      Nat.pow_le_pow_right (by omega) (by omega)
    omega
  · have hd : (tagged ks 0).length / 1 = (tagged ks 0).length :=
      Nat.div_one _
    omega
  · exact fun j => List.Perm.refl _
  · intro j
    refine pairwise_of_short _ _ ?_
    simp [sliceL]
    omega
  · intro j _
    refine pairwise_of_short _ _ ?_
    simp [sliceL]
    omega
  · intro j hj
    have hc := covEnd_one (tagged ks 0).length
    have hsW : sliceL (List.replicate (tagged ks 0).length
        (default : Int × Nat)) (j * 1) (min ((j + 1) * 1)
        (tagged ks 0).length) = [] :=
      sliceL_empty_of_ge _ _ _ (by simp; omega)
    have hsT : sliceL (tagged ks 0) (j * 1) (min ((j + 1) * 1)
        (tagged ks 0).length) = [] :=
      sliceL_empty_of_ge _ _ _ (by omega)
    rw [hsW, hsT]
  · intro j hj
    have hc := covEnd_one (tagged ks 0).length
    have hsW : sliceL (List.replicate (tagged ks 0).length
        (default : Int × Nat)) (j * 1) (min ((j + 1) * 1)
        (tagged ks 0).length) = [] :=
      sliceL_empty_of_ge _ _ _ (by simp; omega)
    rw [hsW]
    exact List.Pairwise.nil

/-- C5: `MergeSort` is stable.  In every merge step the right block's head is
emitted exactly when it compares strictly less than the left block's head, and
otherwise (ties included) the left block's head is emitted.  Consequently, on
any sequence of key-tagged elements compared only by key, the output is a
permutation of the input in which any two elements with equal keys appear in
their original relative order (ascending tags); in particular
`[(5, a), (3, b), (5, c)]` sorts to `[(3, b), (5, a), (5, c)]` with the tags
`a`, `b`, `c` modelled as positions 0, 1, 2. -/
theorem mergeSort_stable :
    (∀ (read write : List (Int × Nat))
        (steps wh first last firstNext lastNext : Nat),
      first ≠ last → firstNext ≠ lastNext →
      mergeInner pairLt read (steps + 1) write wh first last firstNext
          lastNext =
        if (read.getD firstNext default).1 < (read.getD first default).1 then
          mergeInner pairLt read steps
            (write.set wh (read.getD firstNext default)) (wh + 1) first last
            (firstNext + 1) lastNext
        else
          mergeInner pairLt read steps
            (write.set wh (read.getD first default)) (wh + 1) (first + 1)
            last firstNext lastNext) ∧
    (∀ ks : List Int,
      List.Perm (mergeSortP (tagged ks 0)) (tagged ks 0) ∧
      ∀ (i j : Nat) (u v : Int × Nat), i < j →
        (mergeSortP (tagged ks 0)).get? i = some u →
        (mergeSortP (tagged ks 0)).get? j = some v →
        u.1 = v.1 → u.2 < v.2) ∧
    mergeSortP [(5, 0), (3, 1), (5, 2)] = [(3, 1), (5, 0), (5, 2)] := by
  refine ⟨?_, ?_, ?_⟩
  · intro read write steps wh first last firstNext lastNext h1 h2
    rw [mergeInner, if_neg h2, if_neg h1]
    by_cases hlt : (read.getD firstNext default).1 < (read.getD first default).1
    · rw [if_pos (show pairLt (read.getD firstNext default)
          (read.getD first default) = true from decide_eq_true hlt),
        if_pos hlt]
    · rw [if_neg (show ¬ pairLt (read.getD firstNext default)
          (read.getD first default) = true from fun hc =>
            hlt (of_decide_eq_true hc)),
        if_neg hlt]
  · intro ks
    obtain ⟨hperm, hpw⟩ := mergeSortP_stable ks
    refine ⟨hperm, ?_⟩
    intro i j u v hij hu hv
    obtain ⟨hi, hui⟩ := List.get?_eq_some.mp hu
    obtain ⟨hj, hvj⟩ := List.get?_eq_some.mp hv
    have hr := List.pairwise_iff_getElem.mp hpw i j hi hj hij
    rw [List.get_eq_getElem] at hui hvj
    rw [hui, hvj] at hr
    exact hr
  · rfl

/-- Witness for the stability theorem at the spec's worked example: the two
key-5 elements keep their original order. -/
theorem mergeSort_stable_witness :
    ((5 : Int), (0 : Nat)).2 < ((5 : Int), (2 : Nat)).2 :=
  (mergeSort_stable.2.1 [5, 3, 5]).2 1 2 (5, 0) (5, 2) (by decide) (by rfl)
    (by rfl) rfl
